import Mathlib

/-!
Verification development for the zsys machine triage and attachment engine
(`internal/machines/machines.go`).  The Go source is shallowly embedded:
datasets are immutable records, Go maps are association lists whose list
order stands for the (unspecified) map iteration order, and every loop is a
fold.  Helpers of the repository that live outside the examined file
(`isChild`, `resolveOrigin`, the sorters, ...) are modelled from the
specification and marked as such.
-/

namespace Zsys

/-- Go `strings.HasPrefix s pre`. -/
def goStartsWith (s pre : String) : Bool := pre.data.isPrefixOf s.data

/-- Go `strings.HasSuffix s suf`. -/
def goEndsWith (s suf : String) : Bool := suf.data.isSuffixOf s.data

/-- Substring occurrence over character lists. -/
def containsAux (pat : List Char) : List Char → Bool
  | [] => pat.isEmpty
  | x :: xs => pat.isPrefixOf (x :: xs) || containsAux pat xs

/-- Go `strings.Contains s sub`. -/
def goContains (s sub : String) : Bool := containsAux sub.data s.data

/-- Auxiliary splitter: Go `strings.Split` on a one-character separator. -/
def splitOnCharAux (c : Char) : List Char → List Char → List String
  | [], cur => [⟨cur.reverse⟩]
  | x :: xs, cur =>
    if x = c then ⟨cur.reverse⟩ :: splitOnCharAux c xs []
    else splitOnCharAux c xs (x :: cur)

/-- Go `strings.Split s (String.singleton c)`; never returns the empty list. -/
def goSplit (s : String) (c : Char) : List String := splitOnCharAux c s.data []

/-- Go `strings.ToLower` (ASCII case folding suffices for dataset names). -/
def goToLower (s : String) : String := ⟨s.data.map Char.toLower⟩

/-- Go `filepath.Base`. -/
def filepathBase (s : String) : String :=
  if s = "" then "." else
  let l := s.data.reverse.dropWhile (· = '/')
  if l = [] then "/" else ⟨(l.takeWhile (· ≠ '/')).reverse⟩

/-- Index of the last occurrence of `c`, Go `strings.LastIndex`. -/
def lastIndexOf (l : List Char) (c : Char) : Option Nat :=
  match l.reverse.findIdx? (· = c) with
  | none => none
  | some k => some (l.length - 1 - k)

/-- Last `/`-segment of a dataset name: `e := strings.Split(id, "/"); e[len(e)-1]`. -/
def lastSegment (s : String) : String := (goSplit s '/').getLastD ""

/-- The `@tag` of a state id segment when one is present at a positive index
(`if j := strings.LastIndex(stateDatasetID, "@"); j > 0`). -/
def snapshotTag (sid : String) : String :=
  match lastIndexOf sid.data '@' with
  | none => ""
  | some j => if j > 0 then ⟨sid.data.drop (j + 1)⟩ else ""

/-- Go `time.Unix(sec, 0)`: a timestamp, identified by its Unix seconds. -/
structure Time where
  seconds : Int
  deriving Repr, DecidableEq

/-- Go `time.Unix (int64 lu) 0`. -/
def timeUnix (sec : Int) : Time := ⟨sec⟩

/-- The attributes of `zfs.Dataset` that the machines engine reads. -/
structure Dataset where
  Name : String
  Mountpoint : String
  CanMount : String
  IsSnapshot : Bool
  Origin : String
  BootFS : Bool
  BootfsDatasets : String
  LastUsed : Int
  deriving Repr, DecidableEq

/-- `machines.UserState`. -/
structure UserState where
  ID : String
  Datasets : List Dataset
  deriving Repr, DecidableEq

/-- `machines.State`. -/
structure State where
  ID : String
  IsZsys : Bool
  LastUsed : Option Time
  SystemDatasets : List Dataset
  UserDatasets : List Dataset
  PersistentDatasets : List Dataset
  deriving Repr, DecidableEq

/-- The per-machine `Users` map: user name to (timestamp tag to state).  Go
maps are embedded as association lists; the list order models the
(unspecified) iteration order of the Go map. -/
abbrev UsersMap := List (String × List (String × UserState))

/-- `machines.Machine`: the embedded main `State` plus `Users` and `History`. -/
structure Machine where
  state : State
  Users : UsersMap
  History : List (String × State)
  deriving Repr, DecidableEq

/-- `machines.Machines` (the `z` handle of the volume adapter is external). -/
structure Machines where
  all : List (String × Machine)
  cmdline : String
  current : Option String
  allSystemDatasets : List Dataset
  allUsersDatasets : List Dataset
  deriving Repr, DecidableEq

/-- `machines.originAndChildren`. -/
structure originAndChildren where
  origin : String
  children : List Dataset
  deriving Repr, DecidableEq

/-- Go map read `m[k]` (presence as an option). -/
def assocFind {α β : Type} [DecidableEq α] (l : List (α × β)) (k : α) : Option β :=
  (l.find? (fun p => decide (p.1 = k))).map Prod.snd

/-- Go map write `m[k] = v`: replace the binding when the key is present,
append it otherwise. -/
def listSet {α β : Type} [DecidableEq α] (l : List (α × β)) (k : α) (v : β) :
    List (α × β) :=
  if (l.find? (fun p => decide (p.1 = k))).isSome then
    l.map (fun p => if p.1 = k then (k, v) else p)
  else l ++ [(k, v)]

/-- `const userdatasetsContainerName = "/userdata/"`. -/
def userdatasetsContainerName : String := "/userdata/"

/-- Modelled from the spec: `isChild` is not under `src/`.  A volume is a
child of a root when its name is a strict descendant (root name plus `/`);
snapshot root ids are compared without the `@tag`, the child carrying the
same tag.  A name assertion failure (more than one `@`) makes the check be
skipped, i.e. report `false`. -/
def isChildB (name : String) (d : Dataset) : Bool :=
  match goSplit name '@' with
  | [n] => goStartsWith d.Name (n ++ "/")
  | [base, tag] => goStartsWith d.Name (base ++ "/") && goEndsWith d.Name ("@" ++ tag)
  | _ => false

/-- `newMachineFromDataset` (machines.go lines 270-290). -/
def newMachineFromDataset (d : Dataset) (origin : Option String) : Option Machine :=
  if d.Mountpoint = "/" ∧ d.CanMount ≠ "off" ∧ origin = some "" then
    some
      { state :=
          { ID := d.Name
            IsZsys := d.BootFS
            LastUsed := if d.LastUsed ≠ 0 then some (timeUnix d.LastUsed) else none
            SystemDatasets := [d]
            UserDatasets := []
            PersistentDatasets := [] }
        Users := []
        History := [] }
  else none

/-- The history `State` built at machines.go lines 308-317. -/
def historyStateOfDataset (d : Dataset) : State :=
  { ID := d.Name
    IsZsys := d.BootFS
    LastUsed := if d.LastUsed ≠ 0 then some (timeUnix d.LastUsed) else none
    SystemDatasets := [d]
    UserDatasets := []
    PersistentDatasets := [] }

/-- `attachSystemAndHistory` (machines.go lines 295-333): scan the machines
in iteration order; first match wins.  `some` returns the updated map,
`none` says the dataset matched no machine. -/
def attachSystemAndHistory (d : Dataset) (origin : Option String) :
    List (String × Machine) → Option (List (String × Machine))
  | [] => none
  | (k, m) :: rest =>
    if isChildB m.state.ID d then
      some ((k, { m with state := { m.state with SystemDatasets := m.state.SystemDatasets ++ [d] } }) :: rest)
    else if d.Mountpoint = "/" ∧ d.CanMount ≠ "off" ∧ origin = some m.state.ID then
      some ((k, { m with History := listSet m.History d.Name (historyStateOfDataset d) }) :: rest)
    else
      match m.History.find? (fun q => isChildB q.2.ID d) with
      | some (hk, h) =>
        some ((k, { m with History := listSet m.History hk { h with SystemDatasets := h.SystemDatasets ++ [d] } }) :: rest)
      | none =>
        match attachSystemAndHistory d origin rest with
        | some rest' => some ((k, m) :: rest')
        | none => none

/-- The machines map plus the three deferred buckets returned by triage. -/
structure TriageAcc where
  all : List (String × Machine)
  boots : List Dataset
  userdatas : List Dataset
  persistents : List Dataset
  deriving Repr, DecidableEq

/-- One iteration of the `triageDatasets` loop (machines.go lines 224-264). -/
def triageStep (origins : String → Option String) (acc : TriageAcc) (d : Dataset) :
    TriageAcc :=
  match newMachineFromDataset d (origins d.Name) with
  | some m => { acc with all := listSet acc.all d.Name m }
  | none =>
    match attachSystemAndHistory d (origins d.Name) acc.all with
    | some all' => { acc with all := all' }
    | none =>
      if goStartsWith d.Mountpoint "/boot" then { acc with boots := acc.boots ++ [d] }
      else if goContains (goToLower d.Name) userdatasetsContainerName then
        { acc with userdatas := acc.userdatas ++ [d] }
      else if d.CanMount ≠ "on" then acc
      else { acc with persistents := acc.persistents ++ [d] }

/-- `triageDatasets` (machines.go lines 222-267), starting from the fresh
`Machines` value built by `New`/`Refresh` (empty machines map). -/
def triageDatasets (origins : String → Option String) (ds : List Dataset) : TriageAcc :=
  ds.foldl (triageStep origins) ⟨[], [], [], []⟩

/-- Boot datasets bound to a machine's current state (machines.go lines 341-352). -/
def bootsForMachine (machineDatasetID : String) (boots : List Dataset) : List Dataset :=
  boots.foldl
    (fun acc d =>
      if d.IsSnapshot then acc
      else if goEndsWith d.Name ("/" ++ machineDatasetID) ||
          goContains d.Name ("/" ++ machineDatasetID ++ "/") then acc ++ [d]
      else acc)
    []

/-- Root user datasets selected for a machine (machines.go lines 356-372).
The inner loop tests each element of the colon-split `BootfsDatasets`
against the machine id, or the raw string against `id + "/"`. -/
def userRootDatasetsOf (mID : String) (userdatas : List (Dataset × originAndChildren)) :
    List Dataset :=
  userdatas.foldl
    (fun acc rp =>
      if rp.1.IsSnapshot then acc
      else if (goSplit rp.1.BootfsDatasets ':').any
          (fun b => decide (b = mID) || goStartsWith rp.1.BootfsDatasets (mID ++ "/")) then
        acc ++ [rp.1]
      else acc)
    []

/-- The `relative` test of machines.go lines 377-386: is a root user dataset
relative to the machine given its origin and the machine's root set? -/
def relativeGo (userdatas : List (Dataset × originAndChildren)) (urds : List Dataset)
    (r : Dataset) (rOrigin : String) : Bool :=
  urds.any (fun u =>
    let originU := ((assocFind userdatas u).getD ⟨"", []⟩).origin
    decide (r = u) ||
    (decide (rOrigin ≠ "") && decide (rOrigin = originU)) ||
    (decide (originU = "") && decide (rOrigin = u.Name)) ||
    (decide (rOrigin = "") && decide (originU = r.Name)))

/-- The user-map key: prefix of the base name up to the last `_`
(machines.go lines 392-396). -/
def userKeyOf (r : Dataset) : String :=
  let t := goSplit (filepathBase r.Name) '_'
  if t.length > 1 then String.intercalate "_" t.dropLast else t.headD ""

/-- The timestamp slot for a root user dataset (machines.go lines 402-413). -/
def tsOf (urds : List Dataset) (r : Dataset) : String :=
  if urds.any (fun u => decide (r = u)) then "current" else toString r.LastUsed

/-- `UserState.ID` extraction (machines.go lines 416-424). -/
def userStateIdOf (r : Dataset) : String :=
  let delim := if r.IsSnapshot then '@' else '_'
  let t := goSplit (filepathBase r.Name) delim
  if t.length > 1 then t.getLastD "" else ""

/-- The `UserState` inserted for a root user dataset (machines.go lines 426-429). -/
def mkUserState (r : Dataset) (children : List Dataset) : UserState :=
  ⟨userStateIdOf r, r :: children⟩

/-- One iteration of the user-history loop of machines.go lines 375-431. -/
def buildUsersStep (userdatas : List (Dataset × originAndChildren)) (urds : List Dataset)
    (users : UsersMap) (rp : Dataset × originAndChildren) : UsersMap :=
  if relativeGo userdatas urds rp.1 rp.2.origin then
    let user := userKeyOf rp.1
    let users1 := if assocFind users user = none then users ++ [(user, [])] else users
    let ts := tsOf urds rp.1
    match assocFind users1 user with
    | none => users1
    | some slots =>
      if assocFind slots ts = none then
        listSet users1 user (slots ++ [(ts, mkUserState rp.1 rp.2.children)])
      else users1
  else users

/-- The whole user-history loop (machines.go lines 374-431): builds the
per-machine `Users` map from the root user datasets. -/
def buildUsers (userdatas : List (Dataset × originAndChildren)) (urds : List Dataset)
    (users0 : UsersMap) : UsersMap :=
  userdatas.foldl (buildUsersStep userdatas urds) users0

/-- Promotion of the `"current"` slot of each user into the machine's
`UserDatasets` (machines.go lines 433-447). -/
def attachCurrentUserDatasets (users : UsersMap) (mID : String) : List Dataset :=
  users.foldl
    (fun acc p =>
      match assocFind p.2 "current" with
      | none => acc
      | some st =>
        acc ++ st.Datasets.filter (fun d =>
          (goSplit d.BootfsDatasets ':').any
            (fun b => decide (b = mID) || goStartsWith d.BootfsDatasets (mID ++ "/"))))
    []

/-- Boot datasets bound to a history state (machines.go lines 473-488). -/
def bootsForHistory (hID : String) (boots : List Dataset) : List Dataset :=
  let sid := lastSegment hID
  let snap := snapshotTag sid
  boots.foldl
    (fun acc d =>
      if snap ≠ "" ∧ goEndsWith d.Name ("@" ++ snap) then acc ++ [d]
      else if goEndsWith d.Name sid || goContains d.Name ("/" ++ sid ++ "/") then acc ++ [d]
      else acc)
    []

/-- Datasets of one user state whose `BootfsDatasets` matches the history id
(the inner double loop of machines.go lines 516-524; the `break` leaves the
split loop only, so every matching dataset of the state is taken). -/
def stateMatchingDatasets (hID : String) (st : UserState) : List Dataset :=
  st.Datasets.filter (fun d =>
    (goSplit d.BootfsDatasets ':').any
      (fun b => decide (b = hID) || goStartsWith d.BootfsDatasets (hID ++ "/")))

/-- Scan of one user's states for a non-snapshot history (machines.go lines
510-529): the first non-snapshot state with a matching dataset contributes
its matching datasets, and the user scan stops there. -/
def firstMatchingState (hID : String) : List (String × UserState) → List Dataset
  | [] => []
  | (_, st) :: rest =>
    match st.Datasets with
    | [] => firstMatchingState hID rest
    | d0 :: _ =>
      if d0.IsSnapshot then firstMatchingState hID rest
      else
        let ms := stateMatchingDatasets hID st
        if ms = [] then firstMatchingState hID rest else ms

/-- User datasets bound to a history state (machines.go lines 491-530). -/
def usersForHistory (hID : String) (users : UsersMap) : List Dataset :=
  let sid := lastSegment hID
  let snap := snapshotTag sid
  users.foldl
    (fun acc p =>
      if snap ≠ "" then
        acc ++ p.2.foldl
          (fun a q =>
            match q.2.Datasets with
            | [] => a
            | d0 :: _ => if d0.IsSnapshot && decide (q.2.ID = snap) then a ++ q.2.Datasets else a)
          []
      else acc ++ firstMatchingState hID p.2)
    []

/-- `attachRemainingDatasetsForHistory` (machines.go lines 462-535). -/
def attachRemainingDatasetsForHistory (h : State) (boots persistents : List Dataset)
    (users : UsersMap) : State :=
  { h with
    SystemDatasets := h.SystemDatasets ++ bootsForHistory h.ID boots
    UserDatasets := h.UserDatasets ++ usersForHistory h.ID users
    PersistentDatasets := persistents }

/-- Modelled from the spec: `sortedMachineKeys` is not under `src/`; it
returns the machine map's keys sorted lexicographically. -/
def sortKeysString (l : List String) : List String :=
  l.insertionSort (· ≤ ·)

/-- Modelled from the spec: lexicographically sorted machine keys. -/
def sortedMachineKeys (ms : List (String × Machine)) : List String :=
  sortKeysString (ms.map Prod.fst)

/-- Modelled from the spec: lexicographically sorted history keys. -/
def sortedStateKeys (hs : List (String × State)) : List String :=
  sortKeysString (hs.map Prod.fst)

/-- `attachRemainingDatasets` (machines.go lines 335-460). -/
def attachRemainingDatasets (m : Machine) (boots persistents : List Dataset)
    (userdatas : List (Dataset × originAndChildren)) : Machine :=
  let machineDatasetID := lastSegment m.state.ID
  let sys := m.state.SystemDatasets ++ bootsForMachine machineDatasetID boots
  let urds := userRootDatasetsOf m.state.ID userdatas
  let users := buildUsers userdatas urds m.Users
  let userDs := m.state.UserDatasets ++ attachCurrentUserDatasets users m.state.ID
  let hist :=
    (sortedStateKeys m.History).foldl
      (fun hs k =>
        match assocFind hs k with
        | none => hs
        | some h => listSet hs k (attachRemainingDatasetsForHistory h boots persistents users))
      m.History
  { state :=
      { m.state with
        SystemDatasets := sys
        UserDatasets := userDs
        PersistentDatasets := persistents }
    Users := []
    History := hist }

/-- Look a dataset up by name. -/
def findDataset (ds : List Dataset) (n : String) : Option Dataset :=
  ds.find? (fun d => decide (d.Name = n))

/-- Dataset name before the `@` of a snapshot name. -/
def baseOfSnapshot (n : String) : String := ⟨n.data.takeWhile (· ≠ '@')⟩

/-- Modelled from the spec: the walk of the `origin` chain inside
`resolveOrigin` (not under `src/`): a volume with empty origin roots the
walk; an origin naming a snapshot continues at the volume before the `@`; a
missing name leaves the volume unresolved.  The fuel bounds chains by the
inventory size, so a cycle is reported unresolved. -/
def walkOrigin (ds : List Dataset) : Nat → Dataset → Option String
  | 0, _ => none
  | fuel + 1, cur =>
    if cur.Origin = "" then some cur.Name
    else
      match findDataset ds (baseOfSnapshot cur.Origin) with
      | none => none
      | some nxt => walkOrigin ds fuel nxt

/-- Modelled from the spec: `resolveOrigin` (not under `src/`).  For a
snapshot the walk starts, and the mountpoint filter is evaluated, at the
dataset before the `@`; the result maps a volume to `""` when it is its own
true root, to its ultimate origin otherwise, and is absent when unresolved. -/
def resolveOrigin (ds : List Dataset) (rootPath : String) : List (String × String) :=
  ds.foldl
    (fun acc d =>
      let startName := if d.IsSnapshot then baseOfSnapshot d.Name else d.Name
      match findDataset ds startName with
      | none => acc
      | some startD =>
        if rootPath ≠ "" ∧ startD.Mountpoint ≠ rootPath then acc
        else
          match walkOrigin ds (ds.length + 1) startD with
          | none => acc
          | some rootName => acc ++ [(d.Name, if rootName = d.Name then "" else rootName)])
    []

/-- Read an origins association list as the `map[string]*string` of the code. -/
def originsOf (l : List (String × String)) : String → Option String :=
  fun n => assocFind l n

/-- Modelled from the spec: the topological name sort of `sortedDataset`
(not under `src/`): lexicographic on names with `@` ordered below every
other character, so snapshots follow their parent before its children. -/
def nameSortKey (s : String) : List Nat :=
  s.data.map (fun c => if c = '@' then 0 else c.toNat + 1)

/-- Boolean lexicographic order on the sort keys. -/
def lexLeNat : List Nat → List Nat → Bool
  | [], _ => true
  | _ :: _, [] => false
  | a :: as, b :: bs => if a < b then true else if a = b then lexLeNat as bs else false

/-- Modelled from the spec: sort the inventory topologically by name. -/
def sortDatasets (ds : List Dataset) : List Dataset :=
  ds.insertionSort (fun a b => lexLeNat (nameSortKey a.Name) (nameSortKey b.Name) = true)

/-- Modelled from the spec: `getRootDatasets` (not under `src/`): the root
user datasets are those with no parent inside the bucket, each grouped with
its descendants. -/
def getRootDatasets (ds : List Dataset) : List (Dataset × List Dataset) :=
  (ds.filter (fun r =>
      !(ds.any (fun p => (if p.Name = r.Name then false else goStartsWith r.Name (p.Name ++ "/")))))).map
    (fun r => (r, ds.filter (fun c => goStartsWith c.Name (r.Name ++ "/"))))

/-- Modelled from the spec: `appendIfNotPresent` (not under `src/`): append
every dataset not already present, compared by name. -/
def appendIfNotPresent (mainDatasets newDatasets : List Dataset) : List Dataset :=
  newDatasets.foldl
    (fun acc d => if acc.any (fun e => decide (e.Name = d.Name)) then acc else acc ++ [d])
    mainDatasets

/-- Drop `n` characters from the front of a string. -/
def stringDropChars (s : String) (n : Nat) : String := ⟨s.data.drop n⟩

/-- Modelled from the spec: `bootParametersFromCmdline` (not under `src/`):
whitespace tokens, first `root=` wins, `ZFS=` and `zfs:` markers stripped. -/
def bootParametersFromCmdline (cmdline : String) : String :=
  match (goSplit cmdline ' ').filter (fun t => goStartsWith t "root=") with
  | [] => ""
  | t :: _ =>
    let v := stringDropChars t 5
    if goStartsWith v "ZFS=" then stringDropChars v 4
    else if goStartsWith v "zfs:" then stringDropChars v 4
    else v

/-- Modelled from the spec: `findFromRoot` (not under `src/`): a direct hit
in `all` wins, otherwise the machine owning the history entry. -/
def findFromRoot (root : String) (all : List (String × Machine)) : Option String :=
  match assocFind all root with
  | some _ => some root
  | none => (all.find? (fun p => (assocFind p.2.History root).isSome)).map Prod.fst

/-- The main-pass bucket of datasets whose resolved origin is empty
(machines.go lines 156-166). -/
def mainsOf (origins : String → Option String) (ds : List Dataset) : List Dataset :=
  ds.filter (fun d => decide (origins d.Name = some ""))

/-- The clones bucket: resolved to a non-empty origin. -/
def clonesOf (origins : String → Option String) (ds : List Dataset) : List Dataset :=
  ds.filter (fun d =>
    match origins d.Name with
    | some s => decide (s ≠ "")
    | none => false)

/-- The unresolved bucket. -/
def othersOf (origins : String → Option String) (ds : List Dataset) : List Dataset :=
  ds.filter (fun d => (origins d.Name).isNone)

/-- The triage pass as `refresh` performs it: main datasets first, then
clones, then unresolved ones (machines.go line 169). -/
def triagePipeline (origins : String → Option String) (ds : List Dataset) : TriageAcc :=
  triageDatasets origins (mainsOf origins ds ++ clonesOf origins ds ++ othersOf origins ds)

/-- The triage stage of `refresh` on the raw inventory (machines.go lines
139-169): sort, resolve origins against `/`, bucket, triage. -/
def refreshTriage (zDatasets : List Dataset) : TriageAcc :=
  let sds := sortDatasets zDatasets
  let origins := originsOf (resolveOrigin sds "/")
  triagePipeline origins sds

/-- The root-user-dataset map with resolved origins that `refresh` hands to
the attachment stage (machines.go lines 171-186). -/
def refreshUserdatas (flattenedUserDatas : List Dataset) :
    List (Dataset × originAndChildren) :=
  let rootUD := getRootDatasets flattenedUserDatas
  let originsUser := originsOf (resolveOrigin (rootUD.map Prod.fst) "")
  rootUD.map (fun p => (p.1, ⟨(originsUser p.1.Name).getD "", p.2⟩))

/-- The per-machine attachment loop of `refresh` (machines.go lines 191-201):
machines in sorted key order, each attached and its system datasets (then its
history states' ones, in sorted key order) appended to the global list. -/
def refreshAttachLoop (all0 : List (String × Machine)) (boots persistents : List Dataset)
    (userdatas : List (Dataset × originAndChildren)) :
    List (String × Machine) × List Dataset :=
  (sortedMachineKeys all0).foldl
    (fun p k =>
      match assocFind p.1 k with
      | none => p
      | some m =>
        let m' := attachRemainingDatasets m boots persistents userdatas
        let sys :=
          (sortedStateKeys m'.History).foldl
            (fun a hk => a ++ ((assocFind m'.History hk).map State.SystemDatasets).getD [])
            m'.state.SystemDatasets
        (listSet p.1 k m', p.2 ++ sys))
    (all0, [])

/-- `refresh` (machines.go lines 137-219) on an already scanned inventory. -/
def refresh (cmdline : String) (zDatasets : List Dataset) : Machines :=
  let acc := refreshTriage zDatasets
  let userdatas := refreshUserdatas acc.userdatas
  let (all2, allSys) := refreshAttachLoop acc.all acc.boots acc.persistents userdatas
  let allUsers :=
    acc.userdatas.foldl (fun a d => if d.CanMount = "off" then a else a ++ [d]) []
  let root := bootParametersFromCmdline cmdline
  { all := all2
    cmdline := cmdline
    current := findFromRoot root all2
    allSystemDatasets := appendIfNotPresent allSys acc.boots
    allUsersDatasets := allUsers }

/-- `Refresh` (machines.go lines 112-129): the rescan of the volume adapter
either fails — and the receiver is left alone — or yields the inventory a
fresh pass is assembled from, which then replaces the receiver wholesale. -/
def Refresh (machines : Machines) (scan : Except String (List Dataset)) :
    Machines × Option String :=
  match scan with
  | .error e => (machines, some e)
  | .ok ds => (refresh machines.cmdline ds, none)

/-- The history boot-attachment rule in the words of the specification (for
comparison with `bootsForHistory`): for a snapshot state exactly the boots
ending in `"@" ++ snap`; otherwise exactly those ending with the last
segment of the state id or containing it slash-delimited. -/
def claimBootsForHistory (hID : String) (boots : List Dataset) : List Dataset :=
  let sid := lastSegment hID
  let snap := snapshotTag sid
  if snap ≠ "" then boots.filter (fun d => goEndsWith d.Name ("@" ++ snap))
  else boots.filter (fun d => goEndsWith d.Name sid || goContains d.Name ("/" ++ sid ++ "/"))

/-- A non-machine `Machines` value used to exercise `Refresh` failure. -/
def mRefreshW : Machines :=
  { all := [], cmdline := "root=ZFS=rpool/ROOT/u1", current := none
    allSystemDatasets := [], allUsersDatasets := [] }

/-- Concrete boot volume under a snapshot-named parent: bound by the clone
rule of `bootsForHistory` although its name does not end in the tag. -/
def c4Boot : Dataset := ⟨"b/BOOT/u1@s/x", "/boot", "on", false, "", false, "", 0⟩

/-- Empty kernel command line used by concrete runs. -/
def emptyCmdline : String := ""

/-- Mountable user dataset fixture. -/
def c8On : Dataset := ⟨"p/USERDATA/a_1", "/home/a", "on", false, "", false, "", 0⟩

/-- `canmount=off` user dataset fixture. -/
def c8Off : Dataset := ⟨"p/USERDATA/b_1", "/home/b", "off", false, "", false, "", 0⟩

/-- The verdict of the `attachSystemAndHistory` scan restricted to history
creation: `some k` when the scan reaches machine `k` with the new-history
branch, `none` when the dataset is captured as a child first or matches no
machine.  Mirrors the branch structure of machines.go lines 296-330. -/
def scanHist (d : Dataset) (origin : Option String) : List (String × Machine) → Option String
  | [] => none
  | (k, m) :: rest =>
    if isChildB m.state.ID d then none
    else if d.Mountpoint = "/" ∧ d.CanMount ≠ "off" ∧ origin = some m.state.ID then some k
    else if (m.History.find? (fun q => isChildB q.2.ID d)).isSome then none
    else scanHist d origin rest

/-- In machine-iteration order, no machine before `k` captures `d` as a
child of its main root or of one of its history roots, and `k`'s own
main-child check fails (the history branch precedes `k`'s history-children
loop). -/
def notChildCapturedUpTo (ms : List (String × Machine)) (k : String) (d : Dataset) :
    Prop :=
  ∃ ms1 m ms2, ms = ms1 ++ (k, m) :: ms2 ∧
    (∀ p ∈ ms1, isChildB p.2.state.ID d = false ∧
      ∀ q ∈ p.2.History, isChildB q.2.ID d = false) ∧
    isChildB m.state.ID d = false

/-- A state's `LastUsed` agrees with some source dataset of the inventory:
absent exactly when the dataset's `LastUsed` is `0`, the Unix time of it
otherwise. -/
def stateLU (ds : List Dataset) (st : State) : Prop :=
  ∃ d ∈ ds, d.Name = st.ID ∧ (st.LastUsed = none ↔ d.LastUsed = 0) ∧
    (d.LastUsed ≠ 0 → st.LastUsed = some (timeUnix d.LastUsed))

/-- The user-inclusion condition in the words of the specification (for
comparison with `relativeGo`): membership in the machine's root set, equal
origins, or one side's origin equal to the other side's dataset name,
without the emptiness guards of the code. -/
def userIncludedSpecCond (userdatas : List (Dataset × originAndChildren))
    (urds : List Dataset) (r : Dataset) (rOrigin : String) : Bool :=
  urds.any (fun u =>
    let originU := ((assocFind userdatas u).getD ⟨"", []⟩).origin
    decide (r = u) || decide (rOrigin = originU) ||
    decide (originU = r.Name) || decide (rOrigin = u.Name))

/-- Every dataset referenced from some slot of a `Users` map. -/
def usersAllDatasets (users : UsersMap) : List Dataset :=
  (users.map (fun p => (p.2.map (fun q => q.2.Datasets)).flatten)).flatten

/-- Every `UserState` of a `Users` map satisfies: it was inserted for a root
user dataset of the given map, under its user key and timestamp slot. -/
def UsersFromUds (userdatas : List (Dataset × originAndChildren)) (urds : List Dataset)
    (users : UsersMap) : Prop :=
  ∀ user slots, (user, slots) ∈ users → ∀ ts st, (ts, st) ∈ slots →
    ∃ r p, (r, p) ∈ userdatas ∧ relativeGo userdatas urds r p.origin = true ∧
      user = userKeyOf r ∧ ts = tsOf urds r ∧ st = mkUserState r p.children

/-- Some slot of the `Users` map holds a state whose first dataset is `r`. -/
def usersContainRoot (users : UsersMap) (r : Dataset) : Prop :=
  ∃ user slots ts st, (user, slots) ∈ users ∧ (ts, st) ∈ slots ∧
    st.Datasets.head? = some r

/-- The machines map holds a machine at key `k` whose `History` has key `n`. -/
def histMem (ms : List (String × Machine)) (k n : String) : Prop :=
  ∃ m, assocFind ms k = some m ∧ (assocFind m.History n).isSome

/-- Main root fixture. -/
def c3Main : Dataset := ⟨"r/a", "/", "on", false, "", true, "", 0⟩

/-- Clone-of-main fixture. -/
def c3Clone : Dataset := ⟨"r/b", "/", "on", false, "r/a", true, "", 5⟩

/-- Resolved origins for the two fixtures. -/
def c3Origins : String → Option String :=
  fun n => if n = "r/a" then some "" else if n = "r/b" then some "r/a" else none

/-- The machine triage builds from `c3Main` alone. -/
def c2M : Machine :=
  ⟨⟨"r/a", true, none, [c3Main], [], []⟩, [], []⟩

/-- The machine after triaging `c3Main` and `c3Clone`: the clone has become
a history state. -/
def c3M : Machine :=
  ⟨⟨"r/a", true, none, [c3Main], [], []⟩, [],
   [("r/b", ⟨"r/b", true, some ⟨5⟩, [c3Clone], [], []⟩)]⟩

/-- Root user dataset tagged to machine `m`. -/
def c6Alice : Dataset := ⟨"p/USERDATA/alice_a1", "/home/a", "on", false, "", false, "m", 10⟩

/-- Root user dataset with no tag and empty origin. -/
def c6Bob : Dataset := ⟨"p/USERDATA/bob_b1", "/home/b", "on", false, "", false, "", 20⟩

/-- A two-user root map, both with empty resolved origin. -/
def c6Uds : List (Dataset × originAndChildren) := [(c6Alice, ⟨"", []⟩), (c6Bob, ⟨"", []⟩)]

/-- Tagged user dataset for the iteration-order counterexample. -/
def c1A : Dataset := ⟨"p/userdata/a_1", "/h/a", "on", false, "", false, "m", 1⟩

/-- Second tagged user dataset for the iteration-order counterexample. -/
def c1B : Dataset := ⟨"p/userdata/b_1", "/h/b", "on", false, "", false, "m", 2⟩

/-- A `Users` map in one iteration order. -/
def c1UsersA : UsersMap :=
  [("a", [("current", ⟨"1", [c1A]⟩)]), ("b", [("current", ⟨"1", [c1B]⟩)])]

/-- The same `Users` map in the other iteration order. -/
def c1UsersB : UsersMap :=
  [("b", [("current", ⟨"1", [c1B]⟩)]), ("a", [("current", ⟨"1", [c1A]⟩)])]

/-- A contentless machine value for the sorted-keys witness. -/
def c1MachEmpty : Machine := ⟨⟨"", false, none, [], [], []⟩, [], []⟩

/-! ## Helper lemmas -/

/-- A conditional-append loop is a filter. -/
theorem foldl_filterAppend {α : Type} (p : α → Bool) :
    ∀ (l acc : List α),
      l.foldl (fun a d => if p d then a ++ [d] else a) acc = acc ++ l.filter p
  | [], acc => by simp
  | d :: t, acc => by
    by_cases h : p d <;>
      simp [List.foldl_cons, h, foldl_filterAppend p t, List.filter_cons]

/-- A conditional-append loop that projects is a filter-then-map. -/
theorem foldl_filterMapAppend {α β : Type} (p : α → Bool) (g : α → β) :
    ∀ (l : List α) (acc : List β),
      l.foldl (fun a x => if p x then a ++ [g x] else a) acc
        = acc ++ (l.filter p).map g
  | [], acc => by simp
  | d :: t, acc => by
    by_cases h : p d <;>
      simp [List.foldl_cons, h, foldl_filterMapAppend p g t, List.filter_cons]

/-- A list-append loop is a flatten of a map. -/
theorem foldl_flattenAppend {α β : Type} (g : α → List β) :
    ∀ (l : List α) (acc : List β),
      l.foldl (fun a x => a ++ g x) acc = acc ++ (l.map g).flatten
  | [], acc => by simp
  | d :: t, acc => by
    simp [List.foldl_cons, foldl_flattenAppend g t]

/-- The character splitter never returns the empty list. -/
theorem splitOnCharAux_ne_nil (c : Char) :
    ∀ (l cur : List Char), splitOnCharAux c l cur ≠ []
  | [], _ => by simp [splitOnCharAux]
  | x :: xs, cur => by
    by_cases h : x = c <;> simp [splitOnCharAux, h, splitOnCharAux_ne_nil c xs]

/-- Go `strings.Split` never returns the empty list. -/
theorem goSplit_ne_nil (s : String) (c : Char) : goSplit s c ≠ [] :=
  splitOnCharAux_ne_nil c s.data []

/-- Scanning a non-empty list for `q b || c` finds either a `q`-element or
the constant. -/
theorem any_or_const {l : List String} (hl : l ≠ []) (q : String → Bool) (c : Bool) :
    l.any (fun b => q b || c) = true ↔ (∃ b ∈ l, q b = true) ∨ c = true := by
  constructor
  · intro h
    rcases List.any_eq_true.mp h with ⟨b, hb, hqc⟩
    rcases Bool.or_eq_true_iff.mp hqc with h' | h'
    · exact Or.inl ⟨b, hb, h'⟩
    · exact Or.inr h'
  · rintro (⟨b, hb, hq⟩ | hc)
    · exact List.any_eq_true.mpr ⟨b, hb, Bool.or_eq_true_iff.mpr (Or.inl hq)⟩
    · match l, hl with
      | b :: t, _ =>
        exact List.any_eq_true.mpr ⟨b, List.mem_cons_self b t,
          Bool.or_eq_true_iff.mpr (Or.inr hc)⟩

/-- A successful map read names a binding of the list. -/
theorem assocFind_mem {α β : Type} [DecidableEq α] {l : List (α × β)} {k : α} {v : β}
    (h : assocFind l k = some v) : (k, v) ∈ l := by
  unfold assocFind at h
  cases hf : l.find? (fun p => decide (p.1 = k)) with
  | none => rw [hf] at h; cases h
  | some x =>
    rw [hf] at h
    have hx : x ∈ l := List.mem_of_find?_eq_some hf
    have hpred := List.find?_some hf
    have hk : x.1 = k := by simpa using hpred
    have hv : x.2 = v := by simpa using h
    have : x = (k, v) := Prod.ext hk hv
    rwa [this] at hx

/-- A binding of an updated map is the new binding or an old one. -/
theorem mem_listSet {α β : Type} [DecidableEq α] {l : List (α × β)} {k : α} {v : β}
    {x : α × β} (h : x ∈ listSet l k v) : x = (k, v) ∨ x ∈ l := by
  unfold listSet at h
  split at h
  · rcases List.mem_map.mp h with ⟨y, hy, hxy⟩
    by_cases hk : y.1 = k
    · rw [if_pos hk] at hxy; exact Or.inl hxy.symm
    · rw [if_neg hk] at hxy; exact Or.inr (hxy ▸ hy)
  · rcases List.mem_append.mp h with hl | hr
    · exact Or.inr hl
    · exact Or.inl (by simpa using hr)

/-- An update at a present key binds the key to the new value somewhere. -/
theorem listSet_mem_self {α β : Type} [DecidableEq α] {l : List (α × β)} {k : α} {v : β}
    (h : (l.find? (fun p => decide (p.1 = k))).isSome) : (k, v) ∈ listSet l k v := by
  unfold listSet
  rw [if_pos h]
  rcases Option.isSome_iff_exists.mp h with ⟨x, hx⟩
  have hx' : x ∈ l := List.mem_of_find?_eq_some hx
  have hpred := List.find?_some hx
  have hk : x.1 = k := by simpa using hpred
  exact List.mem_map.mpr ⟨x, hx', by rw [if_pos hk]⟩

/-- Updating a key leaves the key list unchanged when the key is present,
appends it otherwise. -/
theorem listSet_keys {α β : Type} [DecidableEq α] (l : List (α × β)) (k : α) (v : β) :
    (listSet l k v).map Prod.fst = l.map Prod.fst ∨
    (listSet l k v).map Prod.fst = l.map Prod.fst ++ [k] := by
  unfold listSet
  split
  · left
    rw [List.map_map]
    refine List.map_congr_left (fun x _ => ?_)
    by_cases hk : x.1 = k <;> simp [hk]
  · right; simp

/-- With nodup keys, a binding in the list is the one `assocFind` returns. -/
theorem assocFind_of_mem_nodup {α β : Type} [DecidableEq α] {l : List (α × β)} {k : α}
    {v : β} (hnd : (l.map Prod.fst).Nodup) (h : (k, v) ∈ l) : assocFind l k = some v := by
  induction l with
  | nil => cases h
  | cons x t ih =>
    rcases List.mem_cons.mp h with hx | ht
    · subst hx
      unfold assocFind
      simp [List.find?_cons]
    · have hk : x.1 ≠ k := by
        intro hc
        have : k ∈ t.map Prod.fst := List.mem_map.mpr ⟨(k, v), ht, rfl⟩
        rw [List.map_cons, hc] at hnd
        exact (List.nodup_cons.mp hnd).1 this
      have hnd' : (t.map Prod.fst).Nodup := by
        rw [List.map_cons] at hnd; exact (List.nodup_cons.mp hnd).2
      unfold assocFind at ih ⊢
      rw [List.find?_cons]
      have hdk : decide (x.1 = k) = false := decide_eq_false hk
      rw [hdk]
      exact ih hnd' ht

/-- `attachSystemAndHistory` never changes the machine key list. -/
theorem attachSystemAndHistory_keys (d : Dataset) (origin : Option String) :
    ∀ (ms ms' : List (String × Machine)),
      attachSystemAndHistory d origin ms = some ms' →
      ms'.map Prod.fst = ms.map Prod.fst := by
  intro ms
  induction ms with
  | nil => intro ms' h; cases h
  | cons km rest ih =>
    intro ms' h
    obtain ⟨k, m⟩ := km
    unfold attachSystemAndHistory at h
    split at h
    · cases h; simp
    · split at h
      · cases h; simp
      · cases hfind : m.History.find? (fun q => isChildB q.2.ID d) with
        | some kh =>
          obtain ⟨hk, hh⟩ := kh
          rw [hfind] at h
          cases h; simp
        | none =>
          rw [hfind] at h
          cases hrec : attachSystemAndHistory d origin rest with
          | some rest' =>
            rw [hrec] at h
            cases h
            simpa using ih rest' hrec
          | none => rw [hrec] at h; cases h

/-! ## Claim theorems -/

/-- C7: when `Refresh` reports an error the receiver `Machines` value is
left entirely unchanged in all its fields, and the old value is replaced
only by the result of a whole successful assembly pass. -/
theorem claim_C7_theorem (m : Machines) (scan : Except String (List Dataset)) :
    (∀ e, (Refresh m scan).2 = some e →
      (Refresh m scan).1.all = m.all ∧
      (Refresh m scan).1.cmdline = m.cmdline ∧
      (Refresh m scan).1.current = m.current ∧
      (Refresh m scan).1.allSystemDatasets = m.allSystemDatasets ∧
      (Refresh m scan).1.allUsersDatasets = m.allUsersDatasets) ∧
    (∀ ds, scan = .ok ds →
      (Refresh m scan).1 = refresh m.cmdline ds ∧ (Refresh m scan).2 = none) := by
  cases scan with
  | error e =>
    constructor
    · intro e' _
      exact ⟨rfl, rfl, rfl, rfl, rfl⟩
    · intro ds hds
      cases hds
  | ok ds =>
    constructor
    · intro e' he'
      cases he'
    · intro ds' hds'
      cases hds'
      exact ⟨rfl, rfl⟩

/-- C7 witness: a failing rescan leaves a concrete `Machines` value intact. -/
theorem claim_C7_witness :
    (Refresh mRefreshW (Except.error "scan failed")).1.all = mRefreshW.all ∧
    (Refresh mRefreshW (Except.error "scan failed")).1.allUsersDatasets
      = mRefreshW.allUsersDatasets :=
  ⟨((claim_C7_theorem mRefreshW (Except.error "scan failed")).1 "scan failed" rfl).1,
   ((claim_C7_theorem mRefreshW (Except.error "scan failed")).1 "scan failed" rfl).2.2.2.2⟩

/-- C8: `allUsersDatasets` is exactly the user bucket of triage filtered of
`canmount=off` volumes, in bucket order; in particular no `canmount=off`
volume appears in it. -/
theorem claim_C8_theorem (cmdline : String) (ds : List Dataset) :
    (refresh cmdline ds).allUsersDatasets
      = (refreshTriage ds).userdatas.filter (fun d => !decide (d.CanMount = "off")) ∧
    ∀ d ∈ (refresh cmdline ds).allUsersDatasets, d.CanMount ≠ "off" := by
  have key : (refresh cmdline ds).allUsersDatasets
      = (refreshTriage ds).userdatas.filter (fun d => !decide (d.CanMount = "off")) := by
    show (refreshTriage ds).userdatas.foldl
        (fun a d => if d.CanMount = "off" then a else a ++ [d]) [] = _
    rw [List.foldl_ext _ (fun a d => if (!decide (d.CanMount = "off")) then a ++ [d] else a)
      [] (fun a d _ => by by_cases h : d.CanMount = "off" <;> simp [h])]
    exact foldl_filterAppend _ _ []
  refine ⟨key, fun d hd => ?_⟩
  rw [key] at hd
  simpa using (List.mem_filter.mp hd).2

/-- C8 witness: on a concrete inventory the `canmount=off` user volume is
dropped and the mountable one survives. -/
theorem claim_C8_witness :
    (refresh emptyCmdline [c8On, c8Off]).allUsersDatasets
      = (refreshTriage [c8On, c8Off]).userdatas.filter
          (fun d => !decide (d.CanMount = "off")) ∧
    c8On.CanMount ≠ "off" :=
  ⟨(claim_C8_theorem emptyCmdline [c8On, c8Off]).1,
   (claim_C8_theorem emptyCmdline [c8On, c8Off]).2 c8On (by decide)⟩

/-- C4 counterexample: for the snapshot-tagged history state
`r/ROOT/u1@s`, the code also binds a boot volume that merely contains
`/u1@s/` in its name, while the claim admits only names ending in `@s`. -/
theorem claim_C4_counterexample :
    bootsForHistory "r/ROOT/u1@s" [c4Boot] = [c4Boot] ∧
    claimBootsForHistory "r/ROOT/u1@s" [c4Boot] = [] ∧
    snapshotTag (lastSegment "r/ROOT/u1@s") = "s" ∧
    goEndsWith c4Boot.Name ("@" ++ "s") = false ∧
    bootsForHistory "r/ROOT/u1@s" [c4Boot]
      ≠ claimBootsForHistory "r/ROOT/u1@s" [c4Boot] := by
  refine ⟨by decide, by decide, by decide, by decide, by decide⟩

/-- C4 (amended): the boots appended to a history state are exactly those
whose name ends in `"@" ++ snap` when a snapshot tag is present, or ends
with the state id's last segment, or contains that segment slash-delimited
(the last two alternatives apply to snapshot states as well). -/
theorem claim_C4_theorem (hID : String) (boots : List Dataset) :
    bootsForHistory hID boots = boots.filter (fun d =>
      (decide (snapshotTag (lastSegment hID) ≠ "") &&
        goEndsWith d.Name ("@" ++ snapshotTag (lastSegment hID))) ||
      goEndsWith d.Name (lastSegment hID) ||
      goContains d.Name ("/" ++ lastSegment hID ++ "/")) := by
  show boots.foldl _ [] = _
  rw [List.foldl_ext _ (fun a d =>
      if ((decide (snapshotTag (lastSegment hID) ≠ "") &&
            goEndsWith d.Name ("@" ++ snapshotTag (lastSegment hID))) ||
          goEndsWith d.Name (lastSegment hID) ||
          goContains d.Name ("/" ++ lastSegment hID ++ "/")) then a ++ [d] else a)
    [] ?_]
  · exact foldl_filterAppend _ boots []
  · intro a d _
    by_cases h1 : snapshotTag (lastSegment hID) ≠ "" <;>
      by_cases h2 : goEndsWith d.Name ("@" ++ snapshotTag (lastSegment hID)) = true <;>
        by_cases h3 : goEndsWith d.Name (lastSegment hID) = true <;>
          by_cases h4 : goContains d.Name ("/" ++ lastSegment hID ++ "/") = true <;>
            simp_all

/-- C5: a root user dataset is selected for a machine exactly when it is
not a snapshot and either some element of its colon-split `BootfsDatasets`
equals the machine id or the raw string begins with the id plus `/`; the
identical test governs which datasets of the `"current"` user slots are
promoted into `UserDatasets`. -/
theorem claim_C5_theorem (mID : String) (userdatas : List (Dataset × originAndChildren))
    (users : UsersMap) (r d : Dataset) :
    (r ∈ userRootDatasetsOf mID userdatas ↔
      (∃ p, (r, p) ∈ userdatas) ∧ r.IsSnapshot = false ∧
        ((∃ b ∈ goSplit r.BootfsDatasets ':', b = mID) ∨
          goStartsWith r.BootfsDatasets (mID ++ "/") = true)) ∧
    (d ∈ attachCurrentUserDatasets users mID ↔
      (∃ user slots st, (user, slots) ∈ users ∧ assocFind slots "current" = some st ∧
          d ∈ st.Datasets) ∧
        ((∃ b ∈ goSplit d.BootfsDatasets ':', b = mID) ∨
          goStartsWith d.BootfsDatasets (mID ++ "/") = true)) := by
  constructor
  · have e1 : userRootDatasetsOf mID userdatas
        = ((userdatas.filter (fun rp => !rp.1.IsSnapshot &&
            (goSplit rp.1.BootfsDatasets ':').any
              (fun b => decide (b = mID) ||
                goStartsWith rp.1.BootfsDatasets (mID ++ "/")))).map Prod.fst) := by
      show userdatas.foldl _ [] = _
      rw [List.foldl_ext _ (fun a rp =>
          if (!rp.1.IsSnapshot &&
              (goSplit rp.1.BootfsDatasets ':').any
                (fun b => decide (b = mID) ||
                  goStartsWith rp.1.BootfsDatasets (mID ++ "/"))) then a ++ [rp.1] else a)
        [] (fun a rp _ => by
          by_cases h1 : rp.1.IsSnapshot <;>
            by_cases h2 : (goSplit rp.1.BootfsDatasets ':').any
              (fun b => decide (b = mID) ||
                goStartsWith rp.1.BootfsDatasets (mID ++ "/")) = true <;>
              simp [h1, h2])]
      exact foldl_filterMapAppend _ _ userdatas []
    rw [e1]
    constructor
    · intro hr
      rcases List.mem_map.mp hr with ⟨rp, hrp, hfst⟩
      rcases List.mem_filter.mp hrp with ⟨hmem, hp⟩
      rw [Bool.and_eq_true] at hp
      rcases hp with ⟨hsnap, hany⟩
      subst hfst
      refine ⟨⟨rp.2, hmem⟩, by simpa using hsnap, ?_⟩
      have := (any_or_const (goSplit_ne_nil rp.1.BootfsDatasets ':')
        (fun b => decide (b = mID)) _).mp hany
      rcases this with ⟨b, hb, hbe⟩ | hpre
      · exact Or.inl ⟨b, hb, of_decide_eq_true hbe⟩
      · exact Or.inr hpre
    · rintro ⟨⟨pch, hmem⟩, hsnap, hcond⟩
      refine List.mem_map.mpr ⟨(r, pch), List.mem_filter.mpr ⟨hmem, ?_⟩, rfl⟩
      rw [Bool.and_eq_true]
      refine ⟨by simp [hsnap], ?_⟩
      refine (any_or_const (goSplit_ne_nil r.BootfsDatasets ':')
        (fun b => decide (b = mID)) _).mpr ?_
      rcases hcond with ⟨b, hb, hbe⟩ | hpre
      · exact Or.inl ⟨b, hb, decide_eq_true hbe⟩
      · exact Or.inr hpre
  · have e2 : attachCurrentUserDatasets users mID
        = (users.map (fun p => match assocFind p.2 "current" with
            | none => ([] : List Dataset)
            | some st => st.Datasets.filter (fun d' =>
                (goSplit d'.BootfsDatasets ':').any
                  (fun b => decide (b = mID) ||
                    goStartsWith d'.BootfsDatasets (mID ++ "/"))))).flatten := by
      show users.foldl _ [] = _
      rw [List.foldl_ext _ (fun a p => a ++ (match assocFind p.2 "current" with
          | none => ([] : List Dataset)
          | some st => st.Datasets.filter (fun d' =>
              (goSplit d'.BootfsDatasets ':').any
                (fun b => decide (b = mID) ||
                  goStartsWith d'.BootfsDatasets (mID ++ "/")))))
        [] (fun a p _ => by cases h : assocFind p.2 "current" <;> simp [h])]
      exact foldl_flattenAppend _ users []
    rw [e2]
    constructor
    · intro hd
      rcases List.mem_flatten.mp hd with ⟨sub, hsub, hdsub⟩
      rcases List.mem_map.mp hsub with ⟨p, hp, hsubeq⟩
      subst hsubeq
      cases hfind : assocFind p.2 "current" with
      | none => rw [hfind] at hdsub; cases hdsub
      | some st =>
        rw [hfind] at hdsub
        rcases List.mem_filter.mp hdsub with ⟨hmem, hcond⟩
        refine ⟨⟨p.1, p.2, st, hp, hfind, hmem⟩, ?_⟩
        have := (any_or_const (goSplit_ne_nil d.BootfsDatasets ':')
          (fun b => decide (b = mID)) _).mp hcond
        rcases this with ⟨b, hb, hbe⟩ | hpre
        · exact Or.inl ⟨b, hb, of_decide_eq_true hbe⟩
        · exact Or.inr hpre
    · rintro ⟨⟨user, slots, st, hp, hfind, hmem⟩, hcond⟩
      refine List.mem_flatten.mpr ⟨_, List.mem_map.mpr ⟨(user, slots), hp, rfl⟩, ?_⟩
      rw [show assocFind (user, slots).2 "current" = some st from hfind]
      refine List.mem_filter.mpr ⟨hmem, ?_⟩
      refine (any_or_const (goSplit_ne_nil d.BootfsDatasets ':')
        (fun b => decide (b = mID)) _).mpr ?_
      rcases hcond with ⟨b, hb, hbe⟩ | hpre
      · exact Or.inl ⟨b, hb, decide_eq_true hbe⟩
      · exact Or.inr hpre

/-- C2: triage creates a new machine for a dataset exactly when its
mountpoint is `/`, its canmount is not `off` and its resolved origin is the
empty string; the machine is keyed by the dataset name and carries the
claimed field values, including a `LastUsed` present exactly for a non-zero
source timestamp. -/
theorem claim_C2_theorem (origins : String → Option String) (acc : TriageAcc)
    (d : Dataset) :
    ((newMachineFromDataset d (origins d.Name)).isSome ↔
      (d.Mountpoint = "/" ∧ d.CanMount ≠ "off" ∧ origins d.Name = some "")) ∧
    (∀ m, newMachineFromDataset d (origins d.Name) = some m →
      m.state.ID = d.Name ∧ m.state.SystemDatasets = [d] ∧
      m.state.IsZsys = d.BootFS ∧
      (m.state.LastUsed = none ↔ d.LastUsed = 0) ∧
      (d.LastUsed ≠ 0 → m.state.LastUsed = some (timeUnix d.LastUsed)) ∧
      (triageStep origins acc d).all = listSet acc.all d.Name m) ∧
    (newMachineFromDataset d (origins d.Name) = none →
      (triageStep origins acc d).all.map Prod.fst = acc.all.map Prod.fst) := by
  refine ⟨?_, ?_, ?_⟩
  · unfold newMachineFromDataset
    split
    · next hcond => simpa using hcond
    · next hcond => simpa using hcond
  · intro m hm
    unfold newMachineFromDataset at hm
    split at hm
    · next hcond =>
      cases hm
      refine ⟨rfl, rfl, rfl, ?_, ?_, ?_⟩
      · by_cases h0 : d.LastUsed = 0 <;> simp [h0]
      · intro h0; simp [h0]
      · unfold triageStep
        rw [show newMachineFromDataset d (origins d.Name)
            = some _ from by unfold newMachineFromDataset; rw [if_pos hcond]]
    · cases hm
  · intro hnone
    simp only [triageStep, hnone]
    cases hatt : attachSystemAndHistory d (origins d.Name) acc.all with
    | some all' =>
      dsimp only
      exact attachSystemAndHistory_keys d (origins d.Name) acc.all all' hatt
    | none =>
      dsimp only
      split_ifs <;> rfl

/-- C2 witness: a concrete root volume creates the expected machine. -/
theorem claim_C2_witness :
    c3Main.Mountpoint = "/" ∧
    (triageStep c3Origins ⟨[], [], [], []⟩ c3Main).all = listSet [] c3Main.Name c2M ∧
    (c2M.state.LastUsed = none ↔ c3Main.LastUsed = 0) :=
  ⟨by decide,
   ((claim_C2_theorem c3Origins ⟨[], [], [], []⟩ c3Main).2.1 c2M (by decide)).2.2.2.2.2,
   ((claim_C2_theorem c3Origins ⟨[], [], [], []⟩ c3Main).2.1 c2M (by decide)).2.2.2.1⟩

/-- C1 counterexample: the promotion of `"current"` user slots iterates the
Go `Users` map directly, so permuting the map's iteration order permutes
`UserDatasets`: the serialized output depends on map iteration order. -/
theorem claim_C1_counterexample :
    c1UsersA.Perm c1UsersB ∧
    attachCurrentUserDatasets c1UsersA "m" = [c1A, c1B] ∧
    attachCurrentUserDatasets c1UsersB "m" = [c1B, c1A] ∧
    attachCurrentUserDatasets c1UsersA "m" ≠ attachCurrentUserDatasets c1UsersB "m" := by
  refine ⟨by decide, by decide, by decide, by decide⟩

/-- C1 (amended): the sorted-key iterations that the pass does use — over
machine keys and over history keys — are independent of map iteration
order: any two key permutations sort identically. -/
theorem claim_C1_theorem (l1 l2 : List (String × Machine))
    (h : (l1.map Prod.fst).Perm (l2.map Prod.fst)) :
    sortedMachineKeys l1 = sortedMachineKeys l2 := by
  unfold sortedMachineKeys sortKeysString
  have s1 := List.sorted_insertionSort (α := String) (· ≤ ·) (l1.map Prod.fst)
  have s2 := List.sorted_insertionSort (α := String) (· ≤ ·) (l2.map Prod.fst)
  have p : (List.insertionSort (· ≤ ·) (l1.map Prod.fst)).Perm
      (List.insertionSort (· ≤ ·) (l2.map Prod.fst)) :=
    (List.perm_insertionSort _ _).trans (h.trans (List.perm_insertionSort _ _).symm)
  exact List.eq_of_perm_of_sorted p s1 s2

/-- C1 witness: two orders of a concrete machine map sort the same. -/
theorem claim_C1_witness :
    sortedMachineKeys [("b", c1MachEmpty), ("a", c1MachEmpty)]
      = sortedMachineKeys [("a", c1MachEmpty), ("b", c1MachEmpty)] :=
  claim_C1_theorem _ _ (by decide)

/-- A state whose id and last-used field come from a dataset of the
inventory satisfies the last-used correspondence. -/
theorem stateLU_of_dataset {ds : List Dataset} {d : Dataset} (hd : d ∈ ds) {st : State}
    (hID : st.ID = d.Name)
    (hLU : st.LastUsed = if d.LastUsed ≠ 0 then some (timeUnix d.LastUsed) else none) :
    stateLU ds st := by
  refine ⟨d, hd, hID.symm, ?_, ?_⟩
  · by_cases h0 : d.LastUsed = 0 <;> simp [h0] at hLU <;> simp [hLU, h0]
  · intro h0; rw [hLU, if_pos h0]

/-- `attachSystemAndHistory` preserves the last-used correspondence of every
machine and history state when the attached dataset is from the inventory. -/
theorem attach_LU (ds : List Dataset) (d : Dataset) (origin : Option String)
    (hd : d ∈ ds) :
    ∀ (ms ms' : List (String × Machine)),
      (∀ p ∈ ms, stateLU ds p.2.state ∧ ∀ q ∈ p.2.History, stateLU ds q.2) →
      attachSystemAndHistory d origin ms = some ms' →
      ∀ p ∈ ms', stateLU ds p.2.state ∧ ∀ q ∈ p.2.History, stateLU ds q.2 := by
  intro ms
  induction ms with
  | nil => intro ms' _ h; cases h
  | cons km rest ih =>
    intro ms' hinv h
    obtain ⟨k, m⟩ := km
    have hm := hinv (k, m) (List.mem_cons_self _ _)
    have hrest : ∀ p ∈ rest, stateLU ds p.2.state ∧ ∀ q ∈ p.2.History, stateLU ds q.2 :=
      fun p hp => hinv p (List.mem_cons_of_mem _ hp)
    unfold attachSystemAndHistory at h
    split at h
    · cases h
      intro p hp
      rcases List.mem_cons.mp hp with rfl | hp'
      · exact ⟨hm.1, hm.2⟩
      · exact hrest p hp'
    · split at h
      · cases h
        intro p hp
        rcases List.mem_cons.mp hp with rfl | hp'
        · refine ⟨hm.1, ?_⟩
          intro q hq
          rcases mem_listSet hq with rfl | hq'
          · exact stateLU_of_dataset hd rfl rfl
          · exact hm.2 q hq'
        · exact hrest p hp'
      · cases hfind : m.History.find? (fun q => isChildB q.2.ID d) with
        | some kh =>
          obtain ⟨hk, hh⟩ := kh
          rw [hfind] at h
          cases h
          intro p hp
          rcases List.mem_cons.mp hp with rfl | hp'
          · refine ⟨hm.1, ?_⟩
            intro q hq
            rcases mem_listSet hq with rfl | hq'
            · exact hm.2 (hk, hh) (List.mem_of_find?_eq_some hfind)
            · exact hm.2 q hq'
          · exact hrest p hp'
        | none =>
          rw [hfind] at h
          cases hrec : attachSystemAndHistory d origin rest with
          | some rest' =>
            rw [hrec] at h
            cases h
            intro p hp
            rcases List.mem_cons.mp hp with rfl | hp'
            · exact ⟨hm.1, hm.2⟩
            · exact ih rest' hrest hrec p hp'
          | none => rw [hrec] at h; cases h

/-- One triage step preserves the last-used correspondence. -/
theorem triageStep_LU (ds : List Dataset) (origins : String → Option String)
    (acc : TriageAcc) (d : Dataset) (hd : d ∈ ds)
    (hinv : ∀ p ∈ acc.all, stateLU ds p.2.state ∧ ∀ q ∈ p.2.History, stateLU ds q.2) :
    ∀ p ∈ (triageStep origins acc d).all,
      stateLU ds p.2.state ∧ ∀ q ∈ p.2.History, stateLU ds q.2 := by
  unfold triageStep
  cases hnm : newMachineFromDataset d (origins d.Name) with
  | some m =>
    dsimp only
    intro p hp
    rcases mem_listSet hp with rfl | hp'
    · unfold newMachineFromDataset at hnm
      split at hnm
      · cases hnm
        exact ⟨stateLU_of_dataset hd rfl rfl, by intro q hq; cases hq⟩
      · cases hnm
    · exact hinv p hp'
  | none =>
    dsimp only
    cases hatt : attachSystemAndHistory d (origins d.Name) acc.all with
    | some all' =>
      dsimp only
      exact attach_LU ds d (origins d.Name) hd acc.all all' hinv hatt
    | none =>
      dsimp only
      split_ifs <;> exact hinv

/-- The triage fold preserves the last-used correspondence. -/
theorem triage_LU (ds : List Dataset) (origins : String → Option String) :
    ∀ (l : List Dataset) (acc : TriageAcc),
      (∀ d ∈ l, d ∈ ds) →
      (∀ p ∈ acc.all, stateLU ds p.2.state ∧ ∀ q ∈ p.2.History, stateLU ds q.2) →
      ∀ p ∈ (l.foldl (triageStep origins) acc).all,
        stateLU ds p.2.state ∧ ∀ q ∈ p.2.History, stateLU ds q.2 := by
  intro l
  induction l with
  | nil => intro acc _ hinv; exact hinv
  | cons d t ih =>
    intro acc hsub hinv
    rw [List.foldl_cons]
    exact ih (triageStep origins acc d)
      (fun e he => hsub e (List.mem_cons_of_mem _ he))
      (triageStep_LU ds origins acc d (hsub d (List.mem_cons_self _ _)) hinv)

/-- C9: every machine and every history state built by triage carries a
`LastUsed` that is absent exactly when the source dataset's `LastUsed` is
zero, and is the Unix time of that value otherwise. -/
theorem claim_C9_theorem (origins : String → Option String) (ds : List Dataset) :
    ∀ k m, (k, m) ∈ (triageDatasets origins ds).all →
      stateLU ds m.state ∧ ∀ hk h, (hk, h) ∈ m.History → stateLU ds h := by
  intro k m hmem
  have h := triage_LU ds origins ds ⟨[], [], [], []⟩ (fun _ h => h)
    (by intro p hp; cases hp) (k, m) hmem
  exact ⟨h.1, fun hk hst hin => h.2 (hk, hst) hin⟩

/-- C9 witness: on the concrete two-volume inventory, the machine created
from the zero-timestamp root has no `LastUsed`, and its history state built
from the non-zero-timestamp clone carries one. -/
theorem claim_C9_witness :
    stateLU [c3Main, c3Clone] c3M.state ∧
    stateLU [c3Main, c3Clone] (⟨"r/b", true, some ⟨5⟩, [c3Clone], [], []⟩ : State) :=
  ⟨(claim_C9_theorem c3Origins [c3Main, c3Clone] "r/a" c3M (by decide)).1,
   (claim_C9_theorem c3Origins [c3Main, c3Clone] "r/a" c3M (by decide)).2
     "r/b" ⟨"r/b", true, some ⟨5⟩, [c3Clone], [], []⟩ (by decide)⟩

/-- One step of the users-map construction preserves provenance of slots. -/
theorem buildUsersStep_fromUds (userdatas : List (Dataset × originAndChildren))
    (urds : List Dataset) (users : UsersMap) (rp : Dataset × originAndChildren)
    (hrp : rp ∈ userdatas) (h : UsersFromUds userdatas urds users) :
    UsersFromUds userdatas urds (buildUsersStep userdatas urds users rp) := by
  unfold buildUsersStep
  dsimp only
  split
  · next hrel =>
    set user := userKeyOf rp.1 with huser
    have h1 : UsersFromUds userdatas urds
        (if assocFind users user = none then users ++ [(user, [])] else users) := by
      split
      · intro u s hu ts st hts
        rcases List.mem_append.mp hu with hu' | hu'
        · exact h u s hu' ts st hts
        · have : (u, s) = (user, []) := by simpa using hu'
          cases this
          cases hts
      · exact h
    set users1 := if assocFind users user = none then users ++ [(user, [])] else users
    cases hfind : assocFind users1 user with
    | none => simpa [hfind] using h1
    | some slots =>
      dsimp only
      split
      · next hts =>
        intro u s hu ts' st' hts'
        rcases mem_listSet hu with heq | hu'
        · cases heq
          rcases List.mem_append.mp hts' with hold | hnew
          · exact h1 user slots (assocFind_mem hfind) ts' st' hold
          · have : (ts', st') = (tsOf urds rp.1, mkUserState rp.1 rp.2.children) := by
              simpa using hnew
            cases this
            exact ⟨rp.1, rp.2, hrp, hrel, rfl, rfl, rfl⟩
        · exact h1 u s hu' ts' st' hts'
      · exact h1
  · exact h

/-- The users-map construction only stores states built from root user
datasets of the map. -/
theorem buildUsers_fromUds (userdatas : List (Dataset × originAndChildren))
    (urds : List Dataset) :
    ∀ (l : List (Dataset × originAndChildren)) (users0 : UsersMap),
      (∀ rp ∈ l, rp ∈ userdatas) → UsersFromUds userdatas urds users0 →
      UsersFromUds userdatas urds (l.foldl (buildUsersStep userdatas urds) users0) := by
  intro l
  induction l with
  | nil => intro users0 _ h; exact h
  | cons rp t ih =>
    intro users0 hsub h
    rw [List.foldl_cons]
    exact ih (buildUsersStep userdatas urds users0 rp)
      (fun e he => hsub e (List.mem_cons_of_mem _ he))
      (buildUsersStep_fromUds userdatas urds users0 rp (hsub rp (List.mem_cons_self _ _)) h)

/-- C10: every `UserState` stored in a machine's `Users` map has a non-empty
`Datasets` list whose first element is the root user dataset it was created
from, so every `Datasets[0]` access of the history attachment is in bounds. -/
theorem claim_C10_theorem (userdatas : List (Dataset × originAndChildren))
    (urds : List Dataset) :
    ∀ user slots, (user, slots) ∈ buildUsers userdatas urds [] →
      ∀ ts st, (ts, st) ∈ slots →
        st.Datasets ≠ [] ∧ ∃ r p, (r, p) ∈ userdatas ∧
          st.Datasets = r :: p.children ∧ st.Datasets.head? = some r := by
  intro user slots hmem ts st hslot
  have h := buildUsers_fromUds userdatas urds userdatas [] (fun _ h => h)
    (by intro u s hu; cases hu) user slots hmem ts st hslot
  rcases h with ⟨r, p, hin, _, _, _, hst⟩
  subst hst
  exact ⟨by simp [mkUserState], r, p, hin, rfl, rfl⟩

/-- C10 witness: the concrete users map stores alice's state headed by her
root dataset. -/
theorem claim_C10_witness :
    (⟨"a1", [c6Alice]⟩ : UserState).Datasets ≠ [] ∧
    ∃ r p, (r, p) ∈ c6Uds ∧
      (⟨"a1", [c6Alice]⟩ : UserState).Datasets = r :: p.children ∧
      (⟨"a1", [c6Alice]⟩ : UserState).Datasets.head? = some r :=
  claim_C10_theorem c6Uds (userRootDatasetsOf "m" c6Uds)
    "alice" [("current", ⟨"a1", [c6Alice]⟩)] (by decide)
    "current" ⟨"a1", [c6Alice]⟩ (by decide)

/-- A `some` answer of the map read means the underlying search succeeded. -/
theorem assocFind_isSome_find {α β : Type} [DecidableEq α] {l : List (α × β)} {k : α}
    {v : β} (h : assocFind l k = some v) :
    (l.find? (fun p => decide (p.1 = k))).isSome = true := by
  unfold assocFind at h
  cases hf : l.find? (fun p => decide (p.1 = k)) with
  | none => rw [hf] at h; cases h
  | some x => simp

/-- A `none` answer of the map read means the key binds nothing. -/
theorem assocFind_none_not_mem {α β : Type} [DecidableEq α] {l : List (α × β)} {k : α}
    (h : assocFind l k = none) : k ∉ l.map Prod.fst := by
  intro hk
  rcases List.mem_map.mp hk with ⟨x, hx, hfst⟩
  unfold assocFind at h
  cases hf : l.find? (fun p => decide (p.1 = k)) with
  | some y => rw [hf] at h; cases h
  | none =>
    have := List.find?_eq_none.mp hf x hx
    simp [hfst] at this

/-- Appending a binding for an absent key makes it the map's answer. -/
theorem assocFind_append_right {α β : Type} [DecidableEq α] {l : List (α × β)} {k : α}
    (h : assocFind l k = none) (v : β) : assocFind (l ++ [(k, v)]) k = some v := by
  induction l with
  | nil => unfold assocFind; simp
  | cons x t ih =>
    have hx : (decide (x.1 = k)) = false := by
      by_contra hc
      have hxk : x.1 = k := of_decide_eq_true (by revert hc; cases decide (x.1 = k) <;> simp)
      unfold assocFind at h
      rw [List.find?_cons, decide_eq_true hxk] at h
      cases h
    have ht : assocFind t k = none := by
      unfold assocFind at h ⊢
      rw [List.find?_cons, hx] at h
      exact h
    unfold assocFind at ih ⊢
    rw [List.cons_append, List.find?_cons, hx]
    exact ih ht

/-- Bindings at other keys survive a map write. -/
theorem mem_listSet_of_ne {α β : Type} [DecidableEq α] {l : List (α × β)} {k : α} {v : β}
    {x : α × β} (hx : x ∈ l) (hne : x.1 ≠ k) : x ∈ listSet l k v := by
  unfold listSet
  split
  · exact List.mem_map.mpr ⟨x, hx, by rw [if_neg hne]⟩
  · exact List.mem_append.mpr (Or.inl hx)

/-- A write at a present key leaves the key list unchanged. -/
theorem listSet_keys_present {α β : Type} [DecidableEq α] {l : List (α × β)} {k : α}
    (v : β) (h : (l.find? (fun p => decide (p.1 = k))).isSome) :
    (listSet l k v).map Prod.fst = l.map Prod.fst := by
  unfold listSet
  rw [if_pos h, List.map_map]
  refine List.map_congr_left (fun x _ => ?_)
  by_cases hk : x.1 = k <;> simp [hk]

/-- One users-map step keeps the user keys nodup. -/
theorem buildUsersStep_keysNodup (userdatas : List (Dataset × originAndChildren))
    (urds : List Dataset) (users : UsersMap) (rp : Dataset × originAndChildren)
    (hnd : (users.map Prod.fst).Nodup) :
    ((buildUsersStep userdatas urds users rp).map Prod.fst).Nodup := by
  unfold buildUsersStep
  dsimp only
  split
  · have hnd1 : (((if assocFind users (userKeyOf rp.1) = none
        then users ++ [(userKeyOf rp.1, [])] else users) : UsersMap).map Prod.fst).Nodup := by
      split
      · next habs =>
        rw [List.map_append]
        simp only [List.map_cons, List.map_nil]
        rw [List.nodup_append]
        exact ⟨hnd, List.nodup_singleton _,
          by intro a ha hb; simp at hb; subst hb; exact assocFind_none_not_mem habs ha⟩
      · exact hnd
    cases hfind : assocFind (if assocFind users (userKeyOf rp.1) = none
        then users ++ [(userKeyOf rp.1, [])] else users) (userKeyOf rp.1) with
    | none => simpa using hnd1
    | some slots =>
      dsimp only
      split
      · rw [listSet_keys_present _ (assocFind_isSome_find hfind)]
        exact hnd1
      · exact hnd1
  · exact hnd

/-- One users-map step preserves the presence of a stored root. -/
theorem buildUsersStep_containsRoot (userdatas : List (Dataset × originAndChildren))
    (urds : List Dataset) (users : UsersMap) (rp : Dataset × originAndChildren)
    (r : Dataset) (hnd : (users.map Prod.fst).Nodup)
    (h : usersContainRoot users r) :
    usersContainRoot (buildUsersStep userdatas urds users rp) r := by
  rcases h with ⟨u0, s0, ts0, st0, hu0, hts0, hhead⟩
  unfold buildUsersStep
  dsimp only
  split
  · set user := userKeyOf rp.1 with huser
    set users1 : UsersMap := if assocFind users user = none
      then users ++ [(user, [])] else users with husers1
    have hu1 : (u0, s0) ∈ users1 := by
      rw [husers1]
      split
      · exact List.mem_append.mpr (Or.inl hu0)
      · exact hu0
    have hnd1 : (users1.map Prod.fst).Nodup := by
      rw [husers1]
      split
      · next habs =>
        rw [List.map_append]
        simp only [List.map_cons, List.map_nil]
        rw [List.nodup_append]
        exact ⟨hnd, List.nodup_singleton _,
          by intro a ha hb; simp at hb; subst hb; exact assocFind_none_not_mem habs ha⟩
      · exact hnd
    cases hfind : assocFind users1 user with
    | none => exact ⟨u0, s0, ts0, st0, hu1, hts0, hhead⟩
    | some slots =>
      dsimp only
      split
      · by_cases hku : u0 = user
        · have hs0 : s0 = slots := by
            have h1 := assocFind_of_mem_nodup hnd1 (hku ▸ hu1)
            exact Option.some.inj (h1.symm.trans hfind)
          refine ⟨user, slots ++ [(tsOf urds rp.1, mkUserState rp.1 rp.2.children)], ts0, st0,
            listSet_mem_self (assocFind_isSome_find hfind),
            List.mem_append.mpr (Or.inl (hs0 ▸ hts0)), hhead⟩
        · exact ⟨u0, s0, ts0, st0, mem_listSet_of_ne hu1 hku, hts0, hhead⟩
      · exact ⟨u0, s0, ts0, st0, hu1, hts0, hhead⟩
  · exact ⟨u0, s0, ts0, st0, hu0, hts0, hhead⟩

/-- A relative root is stored by its own step (slot collisions excluded by
the slot-injectivity hypothesis and the provenance invariant). -/
theorem buildUsersStep_establishes (userdatas : List (Dataset × originAndChildren))
    (urds : List Dataset) (users : UsersMap) (rp : Dataset × originAndChildren)
    (hrpmem : rp ∈ userdatas)
    (hinv : UsersFromUds userdatas urds users)
    (hinj : ∀ q1 ∈ userdatas, ∀ q2 ∈ userdatas,
      relativeGo userdatas urds q1.1 q1.2.origin = true →
      relativeGo userdatas urds q2.1 q2.2.origin = true →
      userKeyOf q1.1 = userKeyOf q2.1 → tsOf urds q1.1 = tsOf urds q2.1 → q1.1 = q2.1)
    (hrel : relativeGo userdatas urds rp.1 rp.2.origin = true) :
    usersContainRoot (buildUsersStep userdatas urds users rp) rp.1 := by
  unfold buildUsersStep
  dsimp only
  rw [if_pos hrel]
  set user := userKeyOf rp.1 with huser
  set users1 : UsersMap := if assocFind users user = none
    then users ++ [(user, [])] else users with husers1
  have hinv1 : UsersFromUds userdatas urds users1 := by
    rw [husers1]
    split
    · intro u s hu ts st hts
      rcases List.mem_append.mp hu with hu' | hu'
      · exact hinv u s hu' ts st hts
      · have : (u, s) = (user, []) := by simpa using hu'
        cases this
        cases hts
    · exact hinv
  have hfind : ∃ slots, assocFind users1 user = some slots := by
    rw [husers1]
    cases habs : assocFind users user with
    | none =>
      refine ⟨[], ?_⟩
      have hred : (if (none : Option (List (String × UserState))) = none
          then users ++ [(user, [])] else users) = users ++ [(user, [])] := if_pos rfl
      rw [hred]
      exact assocFind_append_right habs []
    | some s =>
      refine ⟨s, ?_⟩
      have hred : (if (some s : Option (List (String × UserState))) = none
          then users ++ [(user, [])] else users) = users := if_neg (by simp)
      rw [hred]
      exact habs
  rcases hfind with ⟨slots, hfind⟩
  rw [hfind]
  dsimp only
  cases hts : assocFind slots (tsOf urds rp.1) with
  | none =>
    have hred : (if (none : Option UserState) = none
        then listSet users1 user (slots ++ [(tsOf urds rp.1, mkUserState rp.1 rp.2.children)])
        else users1)
        = listSet users1 user (slots ++ [(tsOf urds rp.1, mkUserState rp.1 rp.2.children)]) :=
      if_pos rfl
    rw [hred]
    refine ⟨user, slots ++ [(tsOf urds rp.1, mkUserState rp.1 rp.2.children)],
      tsOf urds rp.1, mkUserState rp.1 rp.2.children,
      listSet_mem_self (assocFind_isSome_find hfind),
      List.mem_append.mpr (Or.inr (List.mem_singleton.mpr rfl)), rfl⟩
  | some st' =>
    have hred : (if (some st' : Option UserState) = none
        then listSet users1 user (slots ++ [(tsOf urds rp.1, mkUserState rp.1 rp.2.children)])
        else users1) = users1 := if_neg (by simp)
    rw [hred]
    have hslot : (tsOf urds rp.1, st') ∈ slots := assocFind_mem hts
    have husr : (user, slots) ∈ users1 := assocFind_mem hfind
    rcases hinv1 user slots husr (tsOf urds rp.1) st' hslot with
      ⟨r2, p2, hr2, hrel2, huk, htk, hst⟩
    have : r2 = rp.1 := by
      exact hinj (r2, p2) hr2 rp hrpmem hrel2 hrel huk.symm htk.symm
    subst this
    exact ⟨user, slots, tsOf urds rp.1, st', husr, hslot, by rw [hst]; rfl⟩

/-- A stored root survives the rest of the users-map fold. -/
theorem buildUsersFold_containsRoot (userdatas : List (Dataset × originAndChildren))
    (urds : List Dataset) (r : Dataset) :
    ∀ (l : List (Dataset × originAndChildren)) (users0 : UsersMap),
      (users0.map Prod.fst).Nodup → usersContainRoot users0 r →
      usersContainRoot (l.foldl (buildUsersStep userdatas urds) users0) r := by
  intro l
  induction l with
  | nil => intro users0 _ h; exact h
  | cons e t ih =>
    intro users0 hnd h
    rw [List.foldl_cons]
    exact ih _ (buildUsersStep_keysNodup _ _ _ _ hnd)
      (buildUsersStep_containsRoot _ _ _ _ _ hnd h)

/-- Folding the users-map construction over relative roots stores each. -/
theorem buildUsers_containsRoot (userdatas : List (Dataset × originAndChildren))
    (urds : List Dataset)
    (hndk : (userdatas.map Prod.fst).Nodup)
    (hinj : ∀ q1 ∈ userdatas, ∀ q2 ∈ userdatas,
      relativeGo userdatas urds q1.1 q1.2.origin = true →
      relativeGo userdatas urds q2.1 q2.2.origin = true →
      userKeyOf q1.1 = userKeyOf q2.1 → tsOf urds q1.1 = tsOf urds q2.1 → q1.1 = q2.1) :
    ∀ (l : List (Dataset × originAndChildren)) (users0 : UsersMap),
      (∀ e ∈ l, e ∈ userdatas) →
      (users0.map Prod.fst).Nodup →
      UsersFromUds userdatas urds users0 →
      ∀ rp ∈ l, relativeGo userdatas urds rp.1 rp.2.origin = true →
        usersContainRoot (l.foldl (buildUsersStep userdatas urds) users0) rp.1 := by
  intro l
  induction l with
  | nil => intro users0 _ _ _ rp hrp; cases hrp
  | cons rp0 t ih =>
    intro users0 hsub hnd hinv rp hrp hrel
    rw [List.foldl_cons]
    have hnd' := buildUsersStep_keysNodup userdatas urds users0 rp0 hnd
    have hinv' := buildUsersStep_fromUds userdatas urds users0 rp0
      (hsub rp0 (List.mem_cons_self _ _)) hinv
    rcases List.mem_cons.mp hrp with rfl | hrp'
    · exact buildUsersFold_containsRoot userdatas urds rp.1 t _ hnd'
        (buildUsersStep_establishes userdatas urds users0 rp
          (hsub rp (List.mem_cons_self _ _)) hinv hinj hrel)
    · exact ih (buildUsersStep userdatas urds users0 rp0)
        (fun e he => hsub e (List.mem_cons_of_mem _ he)) hnd' hinv' rp hrp' hrel

/-- C6 counterexample: bob's root has the same (empty) resolved origin as
alice's, which is in `userRootDatasets`, so the claim's condition admits
him; the code's guarded test does not, and bob is absent from the built
`Users` map. -/
theorem claim_C6_counterexample :
    userIncludedSpecCond c6Uds (userRootDatasetsOf "m" c6Uds) c6Bob "" = true ∧
    relativeGo c6Uds (userRootDatasetsOf "m" c6Uds) c6Bob "" = false ∧
    (∃ p, (c6Bob, p) ∈ c6Uds) ∧
    buildUsers c6Uds (userRootDatasetsOf "m" c6Uds) []
      = [("alice", [("current", ⟨"a1", [c6Alice]⟩)])] ∧
    c6Bob ∉ usersAllDatasets (buildUsers c6Uds (userRootDatasetsOf "m" c6Uds) []) := by
  refine ⟨by decide, by decide, ⟨⟨"", []⟩, by decide⟩, by decide, by decide⟩

/-- C6 (amended): a root user dataset `r` is included (with its children)
in the machine's `Users` map exactly when some member `u` of
`userRootDatasets` satisfies `r = u`, or `r`'s origin is non-empty and
equals `u`'s origin, or `u`'s origin is empty and `r`'s origin equals
`u`'s name, or `r`'s origin is empty and `u`'s origin equals `r`'s name —
the code's guarded disjunction — assuming distinct root names and no two
relative roots sharing a (user, timestamp) slot. -/
theorem claim_C6_theorem (userdatas : List (Dataset × originAndChildren))
    (urds : List Dataset) (r : Dataset) (p : originAndChildren)
    (hndk : (userdatas.map Prod.fst).Nodup)
    (hinj : ∀ q1 ∈ userdatas, ∀ q2 ∈ userdatas,
      relativeGo userdatas urds q1.1 q1.2.origin = true →
      relativeGo userdatas urds q2.1 q2.2.origin = true →
      userKeyOf q1.1 = userKeyOf q2.1 → tsOf urds q1.1 = tsOf urds q2.1 → q1.1 = q2.1)
    (hmem : (r, p) ∈ userdatas) :
    usersContainRoot (buildUsers userdatas urds []) r ↔
      relativeGo userdatas urds r p.origin = true := by
  constructor
  · rintro ⟨user, slots, ts, st, husr, hslot, hhead⟩
    have h := buildUsers_fromUds userdatas urds userdatas [] (fun _ h => h)
      (by intro u s hu; cases hu) user slots husr ts st hslot
    rcases h with ⟨r2, p2, hr2, hrel2, _, _, hst⟩
    have hr2r : r2 = r := by
      rw [hst] at hhead
      exact Option.some.inj hhead
    subst hr2r
    have hp2 : p2 = p := by
      have h1 := assocFind_of_mem_nodup hndk hr2
      have h2 := assocFind_of_mem_nodup hndk hmem
      exact Option.some.inj (h1.symm.trans h2)
    rwa [hp2] at hrel2
  · intro hrel
    exact buildUsers_containsRoot userdatas urds hndk hinj userdatas []
      (fun _ h => h) (by simp) (by intro u s hu; cases hu) (r, p) hmem hrel

/-- C6 witness: alice's root is relative (it is itself a root of the
machine) and is stored in the built `Users` map. -/
theorem claim_C6_witness :
    usersContainRoot (buildUsers c6Uds (userRootDatasetsOf "m" c6Uds) []) c6Alice :=
  (claim_C6_theorem c6Uds (userRootDatasetsOf "m" c6Uds) c6Alice ⟨"", []⟩
    (by decide) (by decide) (by decide)).mpr (by decide)

/-- A map read is `none` exactly when the underlying search is. -/
theorem assocFind_eq_none_find {α β : Type} [DecidableEq α] {l : List (α × β)} {k : α}
    (h : l.find? (fun p => decide (p.1 = k)) = none) : assocFind l k = none := by
  unfold assocFind
  rw [h]
  rfl

/-- Searching the rewritten list finds the fresh binding. -/
theorem find_map_set {α β : Type} [DecidableEq α] {k : α} {v : β} :
    ∀ {l : List (α × β)}, (l.find? (fun p => decide (p.1 = k))).isSome →
      (l.map (fun p => if p.1 = k then (k, v) else p)).find?
        (fun p => decide (p.1 = k)) = some (k, v) := by
  intro l
  induction l with
  | nil => intro hx; simp at hx
  | cons y t ih =>
    intro hx
    by_cases hy : y.1 = k
    · simp [List.find?_cons, hy]
    · rw [List.map_cons, if_neg hy, List.find?_cons, decide_eq_false hy]
      refine ih ?_
      rw [List.find?_cons, decide_eq_false hy] at hx
      exact hx

/-- Reading the written key returns the written value. -/
theorem assocFind_listSet_self {α β : Type} [DecidableEq α] (l : List (α × β)) (k : α)
    (v : β) : assocFind (listSet l k v) k = some v := by
  unfold listSet
  split
  · next hpres =>
    unfold assocFind
    rw [find_map_set hpres]
    rfl
  · next hpres =>
    have hnone : l.find? (fun p => decide (p.1 = k)) = none := by
      cases hf : l.find? (fun p => decide (p.1 = k)) with
      | none => rfl
      | some x => rw [hf] at hpres; simp at hpres
    exact assocFind_append_right (assocFind_eq_none_find hnone) v

/-- Searching the rewritten list for another key is unaffected. -/
theorem find_map_ne {α β : Type} [DecidableEq α] {k : α} {v : β} {n : α} (hne : n ≠ k) :
    ∀ (l : List (α × β)),
      (l.map (fun p => if p.1 = k then (k, v) else p)).find? (fun p => decide (p.1 = n))
        = l.find? (fun p => decide (p.1 = n))
  | [] => rfl
  | y :: t => by
    by_cases hy : y.1 = k
    · have h1 : (decide ((k, v).1 = n)) = false :=
        decide_eq_false (fun hc => hne hc.symm)
      have h2 : (decide (y.1 = n)) = false :=
        decide_eq_false (by rw [hy]; exact fun hc => hne hc.symm)
      rw [List.map_cons, if_pos hy, List.find?_cons, List.find?_cons, h1, h2]
      exact find_map_ne hne t
    · rw [List.map_cons, if_neg hy, List.find?_cons, List.find?_cons]
      cases hd : decide (y.1 = n) with
      | true => rfl
      | false => exact find_map_ne hne t

/-- Appending a binding for another key is invisible to a read. -/
theorem assocFind_append_ne {α β : Type} [DecidableEq α] {l : List (α × β)} {k : α}
    {v : β} {n : α} (hne : n ≠ k) : assocFind (l ++ [(k, v)]) n = assocFind l n := by
  induction l with
  | nil =>
    unfold assocFind
    simp [List.find?_cons, decide_eq_false (fun hc : k = n => hne hc.symm)]
  | cons y t ih =>
    unfold assocFind at ih ⊢
    rw [List.cons_append, List.find?_cons, List.find?_cons]
    cases hd : decide (y.1 = n) with
    | true => rfl
    | false => exact ih

/-- Reading another key is unaffected by a write. -/
theorem assocFind_listSet_ne {α β : Type} [DecidableEq α] (l : List (α × β)) (k : α)
    (v : β) {n : α} (hne : n ≠ k) : assocFind (listSet l k v) n = assocFind l n := by
  unfold listSet
  split
  · unfold assocFind
    rw [find_map_ne hne l]
  · exact assocFind_append_ne hne

/-- Presence in an updated history map: the written key or an old one. -/
theorem assocFind_listSet_isSome {α β : Type} [DecidableEq α] (l : List (α × β)) (k : α)
    (v : β) (n : α) :
    (assocFind (listSet l k v) n).isSome ↔ (assocFind l n).isSome ∨ n = k := by
  by_cases hn : n = k
  · subst hn
    rw [assocFind_listSet_self]
    simp
  · rw [assocFind_listSet_ne l k v hn]
    simp [hn]

/-- Splitting a nodup list at a common element is unambiguous. -/
theorem nodup_split_unique {α : Type} :
    ∀ {a1 a2 b1 b2 : List α} {d : α}, (a1 ++ d :: b1).Nodup →
      a1 ++ d :: b1 = a2 ++ d :: b2 → a1 = a2 ∧ b1 = b2 := by
  intro a1
  induction a1 with
  | nil =>
    intro a2 b1 b2 d hnd heq
    cases a2 with
    | nil => simpa using heq
    | cons x t =>
      exfalso
      simp only [List.nil_append, List.cons_append, List.cons.injEq] at heq
      rcases heq with ⟨rfl, heq2⟩
      have : d ∈ t ++ d :: b2 := List.mem_append.mpr (Or.inr (List.mem_cons_self _ _))
      rw [← heq2] at this
      exact (List.nodup_cons.mp hnd).1 this
  | cons x t ih =>
    intro a2 b1 b2 d hnd heq
    cases a2 with
    | nil =>
      exfalso
      simp only [List.cons_append, List.nil_append, List.cons.injEq] at heq
      rcases heq with ⟨rfl, heq2⟩
      have : x ∈ t ++ x :: b1 := List.mem_append.mpr (Or.inr (List.mem_cons_self _ _))
      rw [List.cons_append] at hnd
      exact (List.nodup_cons.mp hnd).1 this
    | cons y s =>
      simp only [List.cons_append, List.cons.injEq] at heq
      rcases heq with ⟨rfl, heq2⟩
      rw [List.cons_append] at hnd
      have := ih (List.nodup_cons.mp hnd).2 heq2
      exact ⟨by rw [this.1], this.2⟩

/-- Reading a cons cell checks the head first. -/
theorem assocFind_cons {α β : Type} [DecidableEq α] (x : α × β) (t : List (α × β))
    (k : α) : assocFind (x :: t) k = if x.1 = k then some x.2 else assocFind t k := by
  unfold assocFind
  rw [List.find?_cons]
  by_cases h : x.1 = k
  · rw [decide_eq_true h, if_pos h]
    rfl
  · rw [decide_eq_false h, if_neg h]

/-- A key that binds something is found. -/
theorem assocFind_isSome_of_mem {α β : Type} [DecidableEq α] {l : List (α × β)}
    {x : α × β} (h : x ∈ l) : (assocFind l x.1).isSome = true := by
  induction l with
  | nil => cases h
  | cons y t ih =>
    rw [assocFind_cons]
    rcases List.mem_cons.mp h with rfl | ht
    · simp
    · by_cases hy : y.1 = x.1
      · simp [hy]
      · rw [if_neg hy]; exact ih ht

/-- An absent key reads as `none`. -/
theorem assocFind_eq_none_of_not_mem {α β : Type} [DecidableEq α] {l : List (α × β)}
    {k : α} (h : k ∉ l.map Prod.fst) : assocFind l k = none := by
  unfold assocFind
  rw [List.find?_eq_none.mpr]
  · rfl
  · intro x hx
    simp only [decide_eq_true_eq]
    intro hc
    exact h (List.mem_map.mpr ⟨x, hx, hc⟩)

/-- Writing an absent key appends it to the key list. -/
theorem listSet_keys_absent {α β : Type} [DecidableEq α] {l : List (α × β)} {k : α}
    (v : β) (h : k ∉ l.map Prod.fst) :
    (listSet l k v).map Prod.fst = l.map Prod.fst ++ [k] := by
  unfold listSet
  rw [if_neg, List.map_append]
  · rfl
  · intro hc
    rcases Option.isSome_iff_exists.mp hc with ⟨x, hx⟩
    have hk : x.1 = k := by simpa using List.find?_some hx
    exact h (List.mem_map.mpr ⟨x, List.mem_of_find?_eq_some hx, hk⟩)

/-- A history verdict implies the origin condition and key membership. -/
theorem scanHist_some (d : Dataset) (origin : Option String) :
    ∀ (ms : List (String × Machine)) (k : String),
      (∀ p ∈ ms, p.2.state.ID = p.1) →
      scanHist d origin ms = some k →
      d.Mountpoint = "/" ∧ d.CanMount ≠ "off" ∧ origin = some k ∧ k ∈ ms.map Prod.fst := by
  intro ms
  induction ms with
  | nil => intro k _ h; cases h
  | cons km rest ih =>
    intro k hID h
    obtain ⟨k0, m0⟩ := km
    have hID0 : m0.state.ID = k0 := hID (k0, m0) (List.mem_cons_self _ _)
    unfold scanHist at h
    split at h
    · cases h
    · split at h
      · next hcond =>
        cases h
        refine ⟨hcond.1, hcond.2.1, ?_, by simp⟩
        rw [hcond.2.2, hID0]
      · split at h
        · cases h
        · have := ih k (fun p hp => hID p (List.mem_cons_of_mem _ hp)) h
          exact ⟨this.1, this.2.1, this.2.2.1, by
            rw [List.map_cons]; exact List.mem_cons_of_mem _ this.2.2.2⟩

/-- A history verdict means the attach scan succeeded. -/
theorem scanHist_some_attach (d : Dataset) (origin : Option String) :
    ∀ (ms : List (String × Machine)) (k : String),
      scanHist d origin ms = some k →
      (attachSystemAndHistory d origin ms).isSome = true := by
  intro ms
  induction ms with
  | nil => intro k h; cases h
  | cons km rest ih =>
    intro k h
    obtain ⟨k0, m0⟩ := km
    unfold scanHist at h
    unfold attachSystemAndHistory
    split at h
    · cases h
    · next hc1 =>
      rw [if_neg hc1]
      split at h
      · next hc2 => rw [if_pos hc2]; simp
      · next hc2 =>
        rw [if_neg hc2]
        split at h
        · cases h
        · next hc3 =>
          have hfind : m0.History.find? (fun q => isChildB q.2.ID d) = none := by
            cases hf : m0.History.find? (fun q => isChildB q.2.ID d) with
            | none => rfl
            | some x => rw [hf] at hc3; simp at hc3
          rw [hfind]
          cases hrec : attachSystemAndHistory d origin rest with
          | some rest' => simp
          | none =>
            have := ih k h
            rw [hrec] at this
            cases this

/-- The scan reaches machine `k`'s history branch exactly when the dataset
satisfies the root conditions for `k` and no earlier machine captured it as
a child. -/
theorem scanHist_iff (d : Dataset) (origin : Option String) :
    ∀ (ms : List (String × Machine)),
      (∀ p ∈ ms, p.2.state.ID = p.1) →
      ((ms.map Prod.fst).Nodup) →
      ∀ k,
      (scanHist d origin ms = some k ↔
        (d.Mountpoint = "/" ∧ d.CanMount ≠ "off" ∧ origin = some k ∧
          notChildCapturedUpTo ms k d)) := by
  intro ms
  induction ms with
  | nil =>
    intro _ _ k
    constructor
    · intro h; cases h
    · rintro ⟨_, _, _, ms1, m, ms2, habs, _, _⟩
      cases ms1 <;> simp at habs
  | cons km rest ih =>
    intro hID hnd k
    obtain ⟨k0, m0⟩ := km
    have hID0 : m0.state.ID = k0 := hID (k0, m0) (List.mem_cons_self _ _)
    have hIDr : ∀ p ∈ rest, p.2.state.ID = p.1 :=
      fun p hp => hID p (List.mem_cons_of_mem _ hp)
    have hndr : (rest.map Prod.fst).Nodup := by
      rw [List.map_cons] at hnd; exact (List.nodup_cons.mp hnd).2
    have hk0notr : k0 ∉ rest.map Prod.fst := by
      rw [List.map_cons] at hnd; exact (List.nodup_cons.mp hnd).1
    unfold scanHist
    by_cases hc1 : isChildB m0.state.ID d = true
    · rw [if_pos hc1]
      constructor
      · intro h; cases h
      · rintro ⟨_, _, _, ms1, m, ms2, habs, hpre, hself⟩
        cases ms1 with
        | nil =>
          simp only [List.nil_append, List.cons.injEq] at habs
          rcases habs with ⟨⟨rfl, rfl⟩, _⟩
          rw [hc1] at hself
          cases hself
        | cons x t1 =>
          simp only [List.cons_append, List.cons.injEq] at habs
          rcases habs with ⟨rfl, _⟩
          have := (hpre (k0, m0) (List.mem_cons_self _ _)).1
          rw [hc1] at this
          cases this
    · rw [if_neg hc1]
      by_cases hc2 : d.Mountpoint = "/" ∧ d.CanMount ≠ "off" ∧ origin = some m0.state.ID
      · rw [if_pos hc2]
        constructor
        · intro h
          cases h
          refine ⟨hc2.1, hc2.2.1, by rw [hc2.2.2, hID0], [], m0, rest, rfl, ?_, ?_⟩
          · intro p hp; cases hp
          · simpa using hc1
        · rintro ⟨_, _, horig, _⟩
          have hok0 : origin = some k0 := by rw [hc2.2.2, hID0]
          exact congrArg some (Option.some.inj (hok0.symm.trans horig))
      · rw [if_neg hc2]
        by_cases hc3 : (m0.History.find? (fun q => isChildB q.2.ID d)).isSome = true
        · rw [if_pos hc3]
          constructor
          · intro h; cases h
          · rintro ⟨hmp, hcm, horig, ms1, m, ms2, habs, hpre, hself⟩
            cases ms1 with
            | nil =>
              simp only [List.nil_append, List.cons.injEq] at habs
              rcases habs with ⟨⟨rfl, rfl⟩, _⟩
              exact (hc2 ⟨hmp, hcm, by rw [horig, hID0]⟩).elim
            | cons x t1 =>
              simp only [List.cons_append, List.cons.injEq] at habs
              rcases habs with ⟨rfl, _⟩
              have hnone : m0.History.find? (fun q => isChildB q.2.ID d) = none :=
                List.find?_eq_none.mpr (fun q hq => by
                  rw [(hpre (k0, m0) (List.mem_cons_self _ _)).2 q hq]; simp)
              rw [hnone] at hc3
              cases hc3
        · rw [if_neg hc3]
          have hnone : m0.History.find? (fun q => isChildB q.2.ID d) = none := by
            cases hf : m0.History.find? (fun q => isChildB q.2.ID d) with
            | none => rfl
            | some x => rw [hf] at hc3; simp at hc3
          rw [ih hIDr hndr k]
          constructor
          · rintro ⟨hmp, hcm, horig, ms1, m, ms2, habs, hpre, hself⟩
            refine ⟨hmp, hcm, horig, (k0, m0) :: ms1, m, ms2, by simp [habs], ?_, hself⟩
            intro p hp
            rcases List.mem_cons.mp hp with rfl | hp'
            · refine ⟨by simpa using hc1, ?_⟩
              intro q hq
              have := List.find?_eq_none.mp hnone q hq
              simpa using this
            · exact hpre p hp'
          · rintro ⟨hmp, hcm, horig, ms1, m, ms2, habs, hpre, hself⟩
            cases ms1 with
            | nil =>
              simp only [List.nil_append, List.cons.injEq] at habs
              rcases habs with ⟨⟨rfl, rfl⟩, _⟩
              exact absurd ⟨hmp, hcm, by rw [horig, hID0]⟩ hc2
            | cons x t1 =>
              simp only [List.cons_append, List.cons.injEq] at habs
              rcases habs with ⟨rfl, habs2⟩
              exact ⟨hmp, hcm, horig, t1, m, ms2, habs2,
                fun p hp => hpre p (List.mem_cons_of_mem _ hp), hself⟩

/-- History membership through a cons cell of the machines map. -/
theorem histMem_cons (k0 : String) (m0 : Machine) (rest : List (String × Machine))
    (k n : String) :
    histMem ((k0, m0) :: rest) k n ↔
      (k0 = k ∧ (assocFind m0.History n).isSome = true) ∨ (k0 ≠ k ∧ histMem rest k n) := by
  unfold histMem
  rw [assocFind_cons]
  by_cases hk : k0 = k
  · simp [hk]
  · simp [hk]

set_option maxHeartbeats 2000000 in
/-- Effect of one attach scan on history membership: the keys of every
`History` map are unchanged except that a successful history verdict for
machine `k` adds the dataset's name to `k`'s history. -/
theorem attach_histMem (d : Dataset) (origin : Option String) :
    ∀ (ms ms' : List (String × Machine)),
      (∀ p ∈ ms, p.2.state.ID = p.1) →
      ((ms.map Prod.fst).Nodup) →
      attachSystemAndHistory d origin ms = some ms' →
      ∀ k n, (histMem ms' k n ↔
        histMem ms k n ∨ (n = d.Name ∧ scanHist d origin ms = some k)) := by
  intro ms
  induction ms with
  | nil => intro ms' _ _ h; cases h
  | cons km rest ih =>
    intro ms' hID hnd h k n
    obtain ⟨k0, m0⟩ := km
    have hIDr : ∀ p ∈ rest, p.2.state.ID = p.1 :=
      fun p hp => hID p (List.mem_cons_of_mem _ hp)
    have hndr : (rest.map Prod.fst).Nodup := by
      rw [List.map_cons] at hnd; exact (List.nodup_cons.mp hnd).2
    have hk0notr : k0 ∉ rest.map Prod.fst := by
      rw [List.map_cons] at hnd; exact (List.nodup_cons.mp hnd).1
    unfold attachSystemAndHistory at h
    unfold scanHist
    by_cases hc1 : isChildB m0.state.ID d = true
    · rw [if_pos hc1] at h
      rw [if_pos hc1]
      cases h
      rw [histMem_cons, histMem_cons]
      simp
    · rw [if_neg hc1] at h
      rw [if_neg hc1]
      by_cases hc2 : d.Mountpoint = "/" ∧ d.CanMount ≠ "off" ∧ origin = some m0.state.ID
      · rw [if_pos hc2] at h
        rw [if_pos hc2]
        cases h
        rw [histMem_cons, histMem_cons]
        have h1 : (assocFind (listSet m0.History d.Name (historyStateOfDataset d)) n).isSome
            = true ↔ ((assocFind m0.History n).isSome = true ∨ n = d.Name) := by
          simpa using assocFind_listSet_isSome m0.History d.Name (historyStateOfDataset d) n
        have h2 : (some k0 = some (α := String) k) ↔ k0 = k := by simp
        rw [h1, h2]
        tauto
      · rw [if_neg hc2] at h
        rw [if_neg hc2]
        cases hfind : m0.History.find? (fun q => isChildB q.2.ID d) with
        | some kh =>
          obtain ⟨hk1, hh1⟩ := kh
          rw [hfind] at h
          rw [if_pos (by simp)]
          cases h
          rw [histMem_cons, histMem_cons]
          have hk1mem : (assocFind m0.History hk1).isSome = true :=
            assocFind_isSome_of_mem (List.mem_of_find?_eq_some hfind)
          have h1 : (assocFind (listSet m0.History hk1
              { hh1 with SystemDatasets := hh1.SystemDatasets ++ [d] }) n).isSome
              = true ↔ ((assocFind m0.History n).isSome = true ∨ n = hk1) := by
            simpa using assocFind_listSet_isSome m0.History hk1
              { hh1 with SystemDatasets := hh1.SystemDatasets ++ [d] } n
          have h3 : n = hk1 → (assocFind m0.History n).isSome = true :=
            fun hn => hn ▸ hk1mem
          have h4 : ¬ ((none : Option String) = some k) := by simp
          rw [h1]
          tauto
        | none =>
          rw [hfind] at h
          rw [if_neg (by simp)]
          cases hrec : attachSystemAndHistory d origin rest with
          | some rest' =>
            rw [hrec] at h
            cases h
            rw [histMem_cons, histMem_cons, ih rest' hIDr hndr hrec k n]
            have h5 : scanHist d origin rest = some k → ¬ (k0 = k) :=
              fun hscan hkk =>
                hk0notr (hkk ▸ (scanHist_some d origin rest k hIDr hscan).2.2.2)
            tauto
          | none => rw [hrec] at h; cases h

/-- The attach scan never changes a machine state's id. -/
theorem attach_IDs (d : Dataset) (origin : Option String) :
    ∀ (ms ms' : List (String × Machine)),
      (∀ p ∈ ms, p.2.state.ID = p.1) →
      attachSystemAndHistory d origin ms = some ms' →
      ∀ p ∈ ms', p.2.state.ID = p.1 := by
  intro ms
  induction ms with
  | nil => intro ms' _ h; cases h
  | cons km rest ih =>
    intro ms' hID h
    obtain ⟨k, m⟩ := km
    have hm := hID (k, m) (List.mem_cons_self _ _)
    have hrest : ∀ p ∈ rest, p.2.state.ID = p.1 :=
      fun p hp => hID p (List.mem_cons_of_mem _ hp)
    unfold attachSystemAndHistory at h
    split at h
    · cases h
      intro p hp
      rcases List.mem_cons.mp hp with rfl | hp'
      · exact hm
      · exact hrest p hp'
    · split at h
      · cases h
        intro p hp
        rcases List.mem_cons.mp hp with rfl | hp'
        · exact hm
        · exact hrest p hp'
      · cases hfind : m.History.find? (fun q => isChildB q.2.ID d) with
        | some kh =>
          obtain ⟨hk, hh⟩ := kh
          rw [hfind] at h
          cases h
          intro p hp
          rcases List.mem_cons.mp hp with rfl | hp'
          · exact hm
          · exact hrest p hp'
        | none =>
          rw [hfind] at h
          cases hrec : attachSystemAndHistory d origin rest with
          | some rest' =>
            rw [hrec] at h
            cases h
            intro p hp
            rcases List.mem_cons.mp hp with rfl | hp'
            · exact hm
            · exact ih rest' hrest hrec p hp'
          | none => rw [hrec] at h; cases h

/-- One triage step preserves the machines-map invariants, and any new key
is the processed dataset's name. -/
theorem triageStep_inv (origins : String → Option String) (acc : TriageAcc) (d : Dataset)
    (hID : ∀ p ∈ acc.all, p.2.state.ID = p.1)
    (hnd : ((acc.all.map Prod.fst).Nodup))
    (hfresh : d.Name ∉ acc.all.map Prod.fst)
    (hkne : ∀ p ∈ acc.all, p.1 ≠ "")
    (hdne : d.Name ≠ "") :
    (∀ p ∈ (triageStep origins acc d).all, p.2.state.ID = p.1) ∧
    (((triageStep origins acc d).all.map Prod.fst).Nodup) ∧
    (∀ p ∈ (triageStep origins acc d).all, p.1 ≠ "") ∧
    (∀ x ∈ (triageStep origins acc d).all.map Prod.fst,
      x = d.Name ∨ x ∈ acc.all.map Prod.fst) := by
  unfold triageStep
  cases hnm : newMachineFromDataset d (origins d.Name) with
  | some m =>
    dsimp only
    have hmID : m.state.ID = d.Name := by
      unfold newMachineFromDataset at hnm
      split at hnm
      · cases hnm; rfl
      · cases hnm
    have hkeys : (listSet acc.all d.Name m).map Prod.fst
        = acc.all.map Prod.fst ++ [d.Name] := listSet_keys_absent m hfresh
    refine ⟨?_, ?_, ?_, ?_⟩
    · intro p hp
      rcases mem_listSet hp with rfl | hp'
      · exact hmID
      · exact hID p hp'
    · rw [hkeys, List.nodup_append]
      exact ⟨hnd, List.nodup_singleton _, by
        intro a ha hb; simp at hb; subst hb; exact hfresh ha⟩
    · intro p hp
      rcases mem_listSet hp with rfl | hp'
      · exact hdne
      · exact hkne p hp'
    · intro x hx
      rw [hkeys] at hx
      rcases List.mem_append.mp hx with hold | hnew
      · exact Or.inr hold
      · exact Or.inl (by simpa using hnew)
  | none =>
    dsimp only
    cases hatt : attachSystemAndHistory d (origins d.Name) acc.all with
    | some all' =>
      dsimp only
      have hkeys := attachSystemAndHistory_keys d (origins d.Name) acc.all all' hatt
      refine ⟨attach_IDs d (origins d.Name) acc.all all' hID hatt, ?_, ?_, ?_⟩
      · rw [hkeys]; exact hnd
      · intro p hp
        have : p.1 ∈ acc.all.map Prod.fst := by
          rw [← hkeys]; exact List.mem_map.mpr ⟨p, hp, rfl⟩
        rcases List.mem_map.mp this with ⟨q, hq, hqf⟩
        rw [← hqf]
        exact hkne q hq
      · intro x hx
        rw [hkeys] at hx
        exact Or.inr hx
    | none =>
      dsimp only
      split_ifs <;>
        exact ⟨hID, hnd, hkne, fun x hx => Or.inr hx⟩

/-- Effect of one triage step on history membership. -/
theorem triageStep_histMem (origins : String → Option String) (acc : TriageAcc)
    (d : Dataset)
    (hID : ∀ p ∈ acc.all, p.2.state.ID = p.1)
    (hnd : ((acc.all.map Prod.fst).Nodup))
    (hfresh : d.Name ∉ acc.all.map Prod.fst)
    (hkne : ∀ p ∈ acc.all, p.1 ≠ "") :
    ∀ k n, histMem (triageStep origins acc d).all k n ↔
      histMem acc.all k n ∨
        (n = d.Name ∧ scanHist d (origins d.Name) acc.all = some k) := by
  intro k n
  unfold triageStep
  cases hnm : newMachineFromDataset d (origins d.Name) with
  | some m =>
    dsimp only
    have hscanNone : ∀ k', scanHist d (origins d.Name) acc.all = some k' → False := by
      intro k' hscan
      have hfacts := scanHist_some d (origins d.Name) acc.all k' hID hscan
      unfold newMachineFromDataset at hnm
      split at hnm
      · next hcond =>
        have hk'' : k' = "" := (Option.some.inj (hcond.2.2.symm.trans hfacts.2.2.1)).symm
        rcases List.mem_map.mp hfacts.2.2.2 with ⟨p, hp, hfst⟩
        exact hkne p hp (by rw [hfst, hk''])
      · cases hnm
    have hHist : m.History = [] := by
      unfold newMachineFromDataset at hnm
      split at hnm
      · cases hnm; rfl
      · cases hnm
    constructor
    · rintro ⟨m', hfind', hsome⟩
      by_cases hk : k = d.Name
      · subst hk
        rw [assocFind_listSet_self] at hfind'
        cases hfind'
        rw [hHist] at hsome
        simp [assocFind] at hsome
      · rw [assocFind_listSet_ne _ _ _ hk] at hfind'
        exact Or.inl ⟨m', hfind', hsome⟩
    · rintro (⟨m', hfind', hsome⟩ | ⟨hn, hscan⟩)
      · by_cases hk : k = d.Name
        · subst hk
          rw [assocFind_eq_none_of_not_mem hfresh] at hfind'
          cases hfind'
        · exact ⟨m', by rw [assocFind_listSet_ne _ _ _ hk]; exact hfind', hsome⟩
      · exact (hscanNone k hscan).elim
  | none =>
    dsimp only
    cases hatt : attachSystemAndHistory d (origins d.Name) acc.all with
    | some all' =>
      dsimp only
      exact attach_histMem d (origins d.Name) acc.all all' hID hnd hatt k n
    | none =>
      dsimp only
      have hscanNone : scanHist d (origins d.Name) acc.all = some k → False := by
        intro hscan
        have := scanHist_some_attach d (origins d.Name) acc.all k hscan
        rw [hatt] at this
        cases this
      split_ifs <;>
        (constructor
         · intro hmem
           exact Or.inl hmem
         · rintro (hmem | ⟨_, hscan⟩)
           · exact hmem
           · exact (hscanNone hscan).elim)

/-- The machines-map invariants persist along the triage fold. -/
theorem triage_inv_fold (origins : String → Option String) :
    ∀ (l : List Dataset) (acc : TriageAcc),
      (∀ p ∈ acc.all, p.2.state.ID = p.1) →
      ((acc.all.map Prod.fst).Nodup) →
      (∀ p ∈ acc.all, p.1 ≠ "") →
      (∀ p ∈ acc.all, p.1 ∉ l.map Dataset.Name) →
      ((l.map Dataset.Name).Nodup) →
      (∀ e ∈ l, e.Name ≠ "") →
      (∀ p ∈ (l.foldl (triageStep origins) acc).all, p.2.state.ID = p.1) ∧
      (((l.foldl (triageStep origins) acc).all.map Prod.fst).Nodup) ∧
      (∀ p ∈ (l.foldl (triageStep origins) acc).all, p.1 ≠ "") := by
  intro l
  induction l with
  | nil => intro acc hID hnd hkne _ _ _; exact ⟨hID, hnd, hkne⟩
  | cons d t ih =>
    intro acc hID hnd hkne hdisj hlnd hlne
    rw [List.foldl_cons]
    have hfresh : d.Name ∉ acc.all.map Prod.fst := by
      intro hc
      rcases List.mem_map.mp hc with ⟨p, hp, hfst⟩
      exact hdisj p hp (by rw [hfst]; simp)
    obtain ⟨hID', hnd', hkne', hsub'⟩ :=
      triageStep_inv origins acc d hID hnd hfresh hkne (hlne d (List.mem_cons_self _ _))
    have hdn_t : d.Name ∉ t.map Dataset.Name := by
      rw [List.map_cons] at hlnd
      exact (List.nodup_cons.mp hlnd).1
    have hdisj' : ∀ p ∈ (triageStep origins acc d).all, p.1 ∉ t.map Dataset.Name := by
      intro p hp
      rcases hsub' p.1 (List.mem_map.mpr ⟨p, hp, rfl⟩) with hd | hold
      · rw [hd]; exact hdn_t
      · intro hc
        rcases List.mem_map.mp hold with ⟨q, hq, hqf⟩
        exact hdisj q hq (by rw [hqf]; rw [List.map_cons]; exact List.mem_cons_of_mem _ hc)
    exact ih (triageStep origins acc d) hID' hnd' hkne' hdisj'
      (by rw [List.map_cons] at hlnd; exact (List.nodup_cons.mp hlnd).2)
      (fun e he => hlne e (List.mem_cons_of_mem _ he))

/-- History membership after the triage fold: exactly the datasets whose
scan at their processing step produced a history verdict. -/
theorem triage_histMem_fold (origins : String → Option String) :
    ∀ (l : List Dataset) (acc : TriageAcc),
      (∀ p ∈ acc.all, p.2.state.ID = p.1) →
      ((acc.all.map Prod.fst).Nodup) →
      (∀ p ∈ acc.all, p.1 ≠ "") →
      (∀ p ∈ acc.all, p.1 ∉ l.map Dataset.Name) →
      ((l.map Dataset.Name).Nodup) →
      (∀ e ∈ l, e.Name ≠ "") →
      ∀ k n,
      (histMem (l.foldl (triageStep origins) acc).all k n ↔
        histMem acc.all k n ∨
          ∃ a e b, l = a ++ e :: b ∧ n = e.Name ∧
            scanHist e (origins e.Name) ((a.foldl (triageStep origins) acc).all)
              = some k) := by
  intro l
  induction l with
  | nil =>
    intro acc _ _ _ _ _ _ k n
    simp
  | cons d t ih =>
    intro acc hID hnd hkne hdisj hlnd hlne k n
    rw [List.foldl_cons]
    have hfresh : d.Name ∉ acc.all.map Prod.fst := by
      intro hc
      rcases List.mem_map.mp hc with ⟨p, hp, hfst⟩
      exact hdisj p hp (by rw [hfst]; simp)
    obtain ⟨hID', hnd', hkne', hsub'⟩ :=
      triageStep_inv origins acc d hID hnd hfresh hkne (hlne d (List.mem_cons_self _ _))
    have hdn_t : d.Name ∉ t.map Dataset.Name := by
      rw [List.map_cons] at hlnd
      exact (List.nodup_cons.mp hlnd).1
    have hdisj' : ∀ p ∈ (triageStep origins acc d).all, p.1 ∉ t.map Dataset.Name := by
      intro p hp
      rcases hsub' p.1 (List.mem_map.mpr ⟨p, hp, rfl⟩) with hd | hold
      · rw [hd]; exact hdn_t
      · intro hc
        rcases List.mem_map.mp hold with ⟨q, hq, hqf⟩
        exact hdisj q hq (by rw [hqf]; rw [List.map_cons]; exact List.mem_cons_of_mem _ hc)
    rw [ih (triageStep origins acc d) hID' hnd' hkne' hdisj'
      (by rw [List.map_cons] at hlnd; exact (List.nodup_cons.mp hlnd).2)
      (fun e he => hlne e (List.mem_cons_of_mem _ he)) k n]
    rw [triageStep_histMem origins acc d hID hnd hfresh hkne k n]
    constructor
    · rintro ((hmem | ⟨hn, hscan⟩) | ⟨a, e, b, hsplit, hn, hscan⟩)
      · exact Or.inl hmem
      · exact Or.inr ⟨[], d, t, rfl, hn, hscan⟩
      · exact Or.inr ⟨d :: a, e, b, by rw [hsplit]; rfl, hn, hscan⟩
    · rintro (hmem | ⟨a, e, b, hsplit, hn, hscan⟩)
      · exact Or.inl (Or.inl hmem)
      · cases a with
        | nil =>
          simp only [List.nil_append] at hsplit
          injection hsplit with h1 h2
          subst h1
          subst h2
          exact Or.inl (Or.inr ⟨hn, hscan⟩)
        | cons x a' =>
          simp only [List.cons_append, List.cons.injEq] at hsplit
          rcases hsplit with ⟨rfl, hsplit2⟩
          exact Or.inr ⟨a', e, b, hsplit2, hn, hscan⟩

/-- The three triage buckets are a permutation of the sorted inventory. -/
theorem threeBucket_perm (origins : String → Option String) (ds : List Dataset) :
    (mainsOf origins ds ++ clonesOf origins ds ++ othersOf origins ds).Perm ds := by
  induction ds with
  | nil => simp [mainsOf, clonesOf, othersOf]
  | cons d t ih =>
    unfold mainsOf clonesOf othersOf at ih ⊢
    cases h : origins d.Name with
    | none =>
      rw [List.filter_cons, List.filter_cons, List.filter_cons]
      simp only [h]
      rw [if_neg (by simp), if_neg (by simp), if_pos (by simp)]
      exact List.perm_middle.trans (ih.cons d)
    | some s =>
      by_cases hs : s = ""
      · subst hs
        rw [List.filter_cons, List.filter_cons, List.filter_cons]
        simp only [h]
        rw [if_pos (by simp), if_neg (by simp), if_neg (by simp)]
        simpa using ih.cons d
      · rw [List.filter_cons, List.filter_cons, List.filter_cons]
        simp only [h]
        rw [if_neg (by simp [hs]), if_pos (by simp [hs]), if_neg (by simp)]
        exact (List.perm_middle.append_right _).trans (ih.cons d)

/-- C3: after the triage pass (mains, then clones, then unresolved), the
`History` map of machine `k` holds a state keyed `n` exactly for the clone
datasets named `n` with mountpoint `/`, canmount not `off` and resolved
origin `k`, that were not first captured as a name-descendant child of an
earlier machine's main or history root when they were processed. -/
theorem claim_C3_theorem (origins : String → Option String) (ds : List Dataset)
    (hnd : (ds.map Dataset.Name).Nodup)
    (hne : ∀ d ∈ ds, d.Name ≠ "")
    (k : String) (m : Machine) (n : String)
    (hk : assocFind (triagePipeline origins ds).all k = some m) :
    ((assocFind m.History n).isSome = true ↔
      ∃ a d b, clonesOf origins ds = a ++ d :: b ∧ n = d.Name ∧
        d.Mountpoint = "/" ∧ d.CanMount ≠ "off" ∧ origins d.Name = some k ∧
        notChildCapturedUpTo
          ((triageDatasets origins (mainsOf origins ds ++ a)).all) k d) := by
  set whole := mainsOf origins ds ++ clonesOf origins ds ++ othersOf origins ds
    with hwhole
  have hperm : whole.Perm ds := threeBucket_perm origins ds
  have hwnd : (whole.map Dataset.Name).Nodup := ((hperm.map Dataset.Name).nodup_iff).mpr hnd
  have hwne : ∀ e ∈ whole, e.Name ≠ "" := fun e he => hne e (hperm.subset he)
  have hwelem : whole.Nodup := List.Nodup.of_map Dataset.Name hwnd
  have hempty : ¬ histMem (⟨[], [], [], []⟩ : TriageAcc).all k n := by
    rintro ⟨m', hfind', _⟩
    cases hfind'
  have hfold := triage_histMem_fold origins whole ⟨[], [], [], []⟩
    (by intro p hp; cases hp) (by simp) (by intro p hp; cases hp)
    (by intro p hp; cases hp) hwnd hwne k n
  have hmm : histMem (triagePipeline origins ds).all k n ↔
      (assocFind m.History n).isSome = true := by
    constructor
    · rintro ⟨m', hfind', hsome⟩
      rw [hk] at hfind'
      cases hfind'
      exact hsome
    · intro hsome
      exact ⟨m, hk, hsome⟩
  have hfold' : (assocFind m.History n).isSome = true ↔
      ∃ a e b, whole = a ++ e :: b ∧ n = e.Name ∧
        scanHist e (origins e.Name)
          ((a.foldl (triageStep origins) ⟨[], [], [], []⟩).all) = some k := by
    rw [← hmm]
    rw [show (triagePipeline origins ds).all
      = (whole.foldl (triageStep origins) ⟨[], [], [], []⟩).all from rfl]
    rw [hfold]
    constructor
    · rintro (habs | h)
      · exact (hempty habs).elim
      · exact h
    · exact Or.inr
  rw [hfold']
  constructor
  · rintro ⟨a', e, b', hsplit, hn, hscan⟩
    have hand : ((a'.map Dataset.Name).Nodup) := by
      rw [hsplit, List.map_append] at hwnd
      exact (List.nodup_append.mp hwnd).1
    have hane : ∀ x ∈ a', x.Name ≠ "" :=
      fun x hx => hwne x (by rw [hsplit]; exact List.mem_append_left _ hx)
    obtain ⟨hIDs, hndks, hknes⟩ := triage_inv_fold origins a' ⟨[], [], [], []⟩
      (by intro p hp; cases hp) (by simp) (by intro p hp; cases hp)
      (by intro p hp; cases hp) hand hane
    obtain ⟨hmp, hcm, horig, hcap⟩ :=
      (scanHist_iff e (origins e.Name)
        ((a'.foldl (triageStep origins) ⟨[], [], [], []⟩).all) hIDs hndks k).mp hscan
    have hkne2 : k ≠ "" := by
      rcases hcap with ⟨ms1, mm, ms2, hdec, _, _⟩
      refine hknes (k, mm) ?_
      rw [hdec]
      exact List.mem_append.mpr (Or.inr (List.mem_cons_self _ _))
    have hewhole : e ∈ whole := by
      rw [hsplit]
      exact List.mem_append.mpr (Or.inr (List.mem_cons_self _ _))
    have heclone : e ∈ clonesOf origins ds := by
      rcases List.mem_append.mp hewhole with h12 | hother
      · rcases List.mem_append.mp h12 with hmain | hclone
        · exfalso
          have := List.of_mem_filter hmain
          have h0 : origins e.Name = some "" := by simpa using this
          rw [h0] at horig
          exact hkne2 (Option.some.inj horig).symm
        · exact hclone
      · exfalso
        have := List.of_mem_filter hother
        have h0 : (origins e.Name).isNone = true := by simpa using this
        rw [horig] at h0
        cases h0
    obtain ⟨a, b, hab⟩ := List.append_of_mem heclone
    have hw2 : whole = (mainsOf origins ds ++ a) ++ e :: (b ++ othersOf origins ds) := by
      rw [hwhole, hab]
      simp [List.append_assoc]
    obtain ⟨ha', _⟩ := nodup_split_unique (by rw [← hsplit]; exact hwelem)
      (hsplit.symm.trans hw2)
    refine ⟨a, e, b, hab, hn, hmp, hcm, horig, ?_⟩
    rw [show triageDatasets origins (mainsOf origins ds ++ a)
      = (mainsOf origins ds ++ a).foldl (triageStep origins) ⟨[], [], [], []⟩ from rfl]
    rw [← ha']
    exact hcap
  · rintro ⟨a, e, b, hab, hn, hmp, hcm, horig, hcap⟩
    have hw2 : whole = (mainsOf origins ds ++ a) ++ e :: (b ++ othersOf origins ds) := by
      rw [hwhole, hab]
      simp [List.append_assoc]
    have hand : (((mainsOf origins ds ++ a).map Dataset.Name).Nodup) := by
      rw [hw2, List.map_append] at hwnd
      exact (List.nodup_append.mp hwnd).1
    have hane : ∀ x ∈ mainsOf origins ds ++ a, x.Name ≠ "" :=
      fun x hx => hwne x (by rw [hw2]; exact List.mem_append_left _ hx)
    obtain ⟨hIDs, hndks, hknes⟩ := triage_inv_fold origins (mainsOf origins ds ++ a)
      ⟨[], [], [], []⟩ (by intro p hp; cases hp) (by simp) (by intro p hp; cases hp)
      (by intro p hp; cases hp) hand hane
    refine ⟨mainsOf origins ds ++ a, e, b ++ othersOf origins ds, hw2, hn, ?_⟩
    refine (scanHist_iff e (origins e.Name)
      (((mainsOf origins ds ++ a).foldl (triageStep origins) ⟨[], [], [], []⟩).all)
      hIDs hndks k).mpr ⟨hmp, hcm, horig, ?_⟩
    exact hcap

/-- C3 witness: on the concrete inventory the machine's single history key
is the clone, produced exactly by the characterized conditions. -/
theorem claim_C3_witness :
    ∃ a d b, clonesOf c3Origins [c3Main, c3Clone] = a ++ d :: b ∧ "r/b" = d.Name ∧
      d.Mountpoint = "/" ∧ d.CanMount ≠ "off" ∧ c3Origins d.Name = some "r/a" ∧
      notChildCapturedUpTo
        ((triageDatasets c3Origins (mainsOf c3Origins [c3Main, c3Clone] ++ a)).all)
        "r/a" d :=
  (claim_C3_theorem c3Origins [c3Main, c3Clone] (by decide) (by decide)
    "r/a" c3M "r/b" (by decide)).mp (by decide)

end Zsys
